import Mathlib

/-!
Verification of go-jsonschema-generator: a shallow embedding of `jsonschema.go`.

The program walks the runtime type of a Go value (through package `reflect`)
and fills a `JSONSchema` tree.  The embedding below follows the source
function by function:

* `reflect.Kind`, `reflect.Type` and `reflect.StructField` become the
  inductive types `Kind`, `GoType` and `StructField`;
* Go strings are Lean strings; `strings.Index` and the slice expressions
  `s[:i]`, `s[i+1:]` work on the character list.  The only separator the
  program searches for is the ASCII comma, so positions counted in
  characters and positions counted in bytes cut a string at the same places;
* a `map[string]*JSONSchema` is an association list with unique keys,
  a nil map, nil slice or nil pointer is `none`;
* a Go panic is the result `none` of `Load`;
* `Marshal` is the JSON document that `encoding/json` builds from the struct
  tags of the two schema structs;
* the walk is given three times: over a type as a finite tree (`doLoad`, on
  which most statements are made), over a value with contents
  (`doLoadValue`) and over type declarations that may refer to themselves
  (`doLoadRef`); `doLoadValue_eq` and `doLoadRef_fst` show that the last two
  are the first one.
-/

namespace JsonSchema

/-! ## The part of package `reflect` the program reads -/

/-- The 27 values of `reflect.Kind`, in the order of the Go declaration. -/
inductive Kind
  | Invalid | Bool | Int | Int8 | Int16 | Int32 | Int64
  | Uint | Uint8 | Uint16 | Uint32 | Uint64 | Uintptr
  | Float32 | Float64 | Complex64 | Complex128
  | Array | Chan | Func | Interface | Map | Ptr | Slice | String | Struct
  | UnsafePointer
  deriving DecidableEq, Repr

/-- The kinds of the types that have no component type. -/
inductive BasicKind
  | Bool | Int | Int8 | Int16 | Int32 | Int64
  | Uint | Uint8 | Uint16 | Uint32 | Uint64 | Uintptr
  | Float32 | Float64 | Complex64 | Complex128
  | String | UnsafePointer
  deriving DecidableEq, Repr

/-- The `reflect.Kind` of a basic type. -/
def BasicKind.toKind : BasicKind → Kind
  | .Bool => .Bool | .Int => .Int | .Int8 => .Int8 | .Int16 => .Int16
  | .Int32 => .Int32 | .Int64 => .Int64
  | .Uint => .Uint | .Uint8 => .Uint8 | .Uint16 => .Uint16
  | .Uint32 => .Uint32 | .Uint64 => .Uint64 | .Uintptr => .Uintptr
  | .Float32 => .Float32 | .Float64 => .Float64
  | .Complex64 => .Complex64 | .Complex128 => .Complex128
  | .String => .String | .UnsafePointer => .UnsafePointer

/-- A struct tag (`reflect.StructTag`) as its list of `key:"value"` pairs. -/
abbrev StructTag := List (String × String)

/-- The method `StructTag.Get`: the value of the first pair with the given key,
the empty string when the key is absent. -/
def StructTag.Get (tag : StructTag) (key : String) : String :=
  match tag.find? (fun kv => kv.1 == key) with
  | some kv => kv.2
  | none => ""

mutual
/-- A Go type as `reflect.Type` describes it: its kind together with the
component types.  Function and interface types carry nothing the program reads. -/
inductive GoType
  | basic (k : BasicKind)
  | array (len : Nat) (elem : GoType)
  | chan (elem : GoType)
  | func
  | interface
  | map (key elem : GoType)
  | ptr (elem : GoType)
  | slice (elem : GoType)
  | struct (fields : List StructField)
/-- One declared field of a struct (`reflect.StructField`): name, tag, type. -/
inductive StructField
  | mk (Name : String) (Tag : StructTag) (Type_ : GoType)
end

/-- The field's declared name. -/
def StructField.Name : StructField → String
  | .mk n _ _ => n

/-- The field's struct tag. -/
def StructField.Tag : StructField → StructTag
  | .mk _ t _ => t

/-- The field's type. -/
def StructField.Type_ : StructField → GoType
  | .mk _ _ t => t

/-- The method `Type.Kind` (equally `Value.Kind` on a valid value). -/
def GoType.Kind : GoType → Kind
  | .basic k => k.toKind
  | .array _ _ => .Array
  | .chan _ => .Chan
  | .func => .Func
  | .interface => .Interface
  | .map _ _ => .Map
  | .ptr _ => .Ptr
  | .slice _ => .Slice
  | .struct _ => .Struct

/-! ## Package `strings` and string slicing -/

/-- Search for `substr` in the remaining characters, `i` being the position
of the first of them; `-1` when there is no occurrence. -/
def strings.indexFrom (substr : List Char) : List Char → Nat → Int
  | [], i => if substr = [] then (i : Int) else -1
  | c :: cs, i =>
    if substr.isPrefixOf (c :: cs) then (i : Int)
    else strings.indexFrom substr cs (i + 1)

/-- The function `strings.Index(s, substr)`: the position of the first
occurrence of `substr` in `s`, or `-1`. -/
def strings.Index (s substr : String) : Int :=
  strings.indexFrom substr.data s.data 0

/-- The slice expression `s[:i]`. -/
def sliceTo (s : String) (i : Int) : String :=
  ⟨s.data.take i.toNat⟩

/-- The slice expression `s[i:]`. -/
def sliceFrom (s : String) (i : Int) : String :=
  ⟨s.data.drop i.toNat⟩

/-! ## The schema tree (source lines 9-18) -/

/-- The struct `JSONSchemaItems`. -/
structure JSONSchemaItems where
  Type_ : String
  deriving DecidableEq, Repr

/-- The struct `JSONSchema`.  `Items` is a pointer, `Properties` a map of
pointers and `Required` a slice: each is `none` when nil. -/
structure JSONSchema where
  Type_ : String
  Items : Option JSONSchemaItems
  Properties : Option (List (String × JSONSchema))
  Required : Option (List String)
  deriving Repr

/-- The zero value `JSONSchema{}`: a fresh schema. -/
def JSONSchema.fresh : JSONSchema := ⟨"", none, none, none⟩

/-- The map assignment `m[key] = val` on the association list: the entry of
an existing key is replaced, a new key is added. -/
def mapAssign (m : List (String × JSONSchema)) (key : String) (val : JSONSchema) :
    List (String × JSONSchema) :=
  match m with
  | [] => [(key, val)]
  | (k, v) :: rest =>
    if k = key then (k, val) :: rest else (k, v) :: mapAssign rest key val

/-- The map index expression `m[key]` with the comma-ok result. -/
def mapIndex (m : List (String × JSONSchema)) (key : String) : Option JSONSchema :=
  match m with
  | [] => none
  | (k, v) :: rest => if k = key then some v else mapIndex rest key

/-- The keys of a map. -/
def mapKeys (m : List (String × JSONSchema)) : List String :=
  m.map Prod.fst

/-- The builtin `append` on a slice of strings that may be nil. -/
def appendStr (s : Option (List String)) (x : String) : Option (List String) :=
  match s with
  | none => some [x]
  | some l => some (l ++ [x])

/-! ## The kind table (source lines 88-114) -/

/-- The package variable `mapping` as a lookup: `some t` for a key of the
map literal, `none` for a kind that is not a key. -/
def mapping : Kind → Option String
  | .Bool => some "bool"
  | .Int => some "integer"
  | .Int8 => some "integer"
  | .Int16 => some "integer"
  | .Int32 => some "integer"
  | .Int64 => some "integer"
  | .Uint => some "integer"
  | .Uint8 => some "integer"
  | .Uint16 => some "integer"
  | .Uint32 => some "integer"
  | .Uint64 => some "integer"
  | .Float32 => some "number"
  | .Float64 => some "number"
  | .String => some "string"
  | .Slice => some "array"
  | .Struct => some "object"
  | .Map => some "object"
  | _ => none

/-- The function `getTypeFromMapping`. -/
def getTypeFromMapping (k : Kind) : String :=
  match mapping k with
  | some t => t
  | none => ""

/-! ## Tag parsing (source lines 116-142) -/

/-- The type `tagOptions`: a string. -/
abbrev tagOptions := String

/-- The function `parseTag`. -/
def parseTag (tag : String) : String × tagOptions :=
  let idx := strings.Index tag ","
  if idx ≠ -1 then (sliceTo tag idx, sliceFrom tag (idx + 1))
  else (tag, "")

/-- The `for s != ""` loop of `tagOptions.Contains`.  The first argument
bounds the number of iterations. -/
def containsLoop (optionName : String) : Nat → String → Bool
  | 0, _ => false
  | fuel + 1, s =>
    if s = "" then false
    else
      let i := strings.Index s ","
      let s1 := if i ≥ 0 then sliceTo s i else s
      let next := if i ≥ 0 then sliceFrom s (i + 1) else ""
      if s1 = optionName then true
      else containsLoop optionName fuel next

/-- The method `tagOptions.Contains`.  Every iteration of the loop but the
last shortens the string, so `len(o)` iterations are enough
(`containsLoop_fuel`, `containsLoop_succ`). -/
def tagOptions.Contains (o : tagOptions) (optionName : String) : Bool :=
  if o.length = 0 then false
  else containsLoop optionName o.length o

/-! ## The walk over the type (source lines 29-86) -/

/-- The method `doLoadFromSlice`; `elem` is `valueObject.Type().Elem()`. -/
def doLoadFromSlice (j : JSONSchema) (elem : GoType) : JSONSchema :=
  let k := elem.Kind
  if k = Kind.Uint8 then { j with Type_ := "string" }
  else { j with Items := some { Type_ := getTypeFromMapping k } }
/-- The method `doLoadFromMap`; `elem` is `valueObject.Type().Elem()`. -/
def doLoadFromMap (j : JSONSchema) (elem : GoType) : JSONSchema :=
  let k := elem.Kind
  { j with Properties := some (mapAssign [] ".*" ⟨getTypeFromMapping k, none, none, none⟩) }

set_option linter.unusedVariables false in
mutual
/-- The method `doLoad` on a valid value of type `value`.  The receiver is
passed in and the updated receiver is returned.  `opts` is not read.  The
case `reflect.Struct` holds the body of `doLoadFromStruct` (lines 64-66
followed by the loop), see `doLoadFromStruct` and `doLoad_struct` below. -/
def doLoad (j : JSONSchema) (value : GoType) (opts : tagOptions) : JSONSchema :=
  let kind := value.Kind
  let j := { j with Type_ := getTypeFromMapping kind }
  match value with
  | .slice elem => doLoadFromSlice j elem
  | .map _ elem => doLoadFromMap j elem
  | .struct fields =>
    doLoadFields { j with Type_ := "object", Properties := some [] } fields
  | _ => j
/-- The loop of `doLoadFromStruct` (lines 69-85) over the fields that are
still to be visited.  The loop runs on the map made at line 65, so the map it
assigns into is never nil. -/
def doLoadFields (j : JSONSchema) : List StructField → JSONSchema
  | [] => j
  | .mk fieldName fieldTag fieldType :: rest =>
    let tag := StructTag.Get fieldTag "json"
    let name := (parseTag tag).1
    let opts := (parseTag tag).2
    let name := if name = "" then fieldName else name
    -- lines 79-80: a fresh child is stored under `name` and loaded
    let child := doLoad JSONSchema.fresh fieldType opts
    let j := { j with Properties := some (mapAssign (j.Properties.getD []) name child) }
    let j := if !(tagOptions.Contains opts "omitempty") then
        { j with Required := appendStr j.Required name }
      else j
    doLoadFields j rest
end

/-- The method `doLoadFromStruct`; `fields` are the fields
`0 .. NumField()-1` of `valueObject.Type()`. -/
def doLoadFromStruct (j : JSONSchema) (fields : List StructField) : JSONSchema :=
  let j := { j with Type_ := "object", Properties := some [] }
  doLoadFields j fields

/-- The `interface{}` argument of `Load`, as far as `reflect.ValueOf` and
`Value.Elem` read it: the dynamic type (`none` for the nil interface) and
whether the value held is a nil pointer.  The contents of the value pointed
to are not part of it: the program reads the type only. -/
structure Variable where
  dynType : Option GoType
  isNil : Bool

/-- A non-nil pointer to a value of type `t`: the argument `&x` for `x` of type `t`. -/
def Variable.pointerTo (t : GoType) : Variable :=
  ⟨some (.ptr t), false⟩

/-- The method `Load`.  `reflect.ValueOf(variable).Elem()` panics (`none`)
unless `var` (the source's `variable`) holds a pointer: `ValueOf` of the nil interface is the zero
Value, and `Elem` panics on every kind but Interface and Ptr.  On a nil
pointer `Elem` returns the zero Value, whose `Kind()` is Invalid, so that
`doLoad` sets `Type` and takes no case of its switch. -/
def Load (j : JSONSchema) (var : Variable) : Option JSONSchema :=
  match var.dynType with
  | none => none
  | some (.ptr elem) =>
    if var.isNil then some { j with Type_ := getTypeFromMapping Kind.Invalid }
    else some (doLoad j elem "")
  | some _ => none

/-! ## Specification-side notions: names, options and tokens of a tag -/

/-- The part of a tag before its first comma (the whole tag when it has none). -/
def tagName (tag : String) : String :=
  ⟨tag.data.takeWhile (fun c => c != ',')⟩

/-- The part of a tag after its first comma (empty when it has none). -/
def tagRest (tag : String) : String :=
  ⟨(tag.data.dropWhile (fun c => c != ',')).drop 1⟩

/-- The pieces of a character list between its commas. -/
def splitCommas : List Char → List (List Char)
  | [] => [[]]
  | c :: cs =>
    if c = ',' then [] :: splitCommas cs
    else
      match splitCommas cs with
      | [] => [[c]]
      | t :: ts => (c :: t) :: ts

/-- The tokens of a comma-separated option string. -/
def tokens (o : String) : List String :=
  (splitCommas o.data).map String.mk

/-- The resolved property name of a field: the part of its json tag before
the first comma if that part is non-empty, the field's own name otherwise. -/
def StructField.resolvedName (f : StructField) : String :=
  if tagName (f.Tag.Get "json") ≠ "" then tagName (f.Tag.Get "json") else f.Name

/-- The field is marked optional: the options of its json tag (what follows
the first comma) hold the token `omitempty`. -/
def StructField.omitempty (f : StructField) : Bool :=
  decide ("omitempty" ∈ tokens (tagRest (f.Tag.Get "json")))

/-- The resolved names of the fields that are not marked optional, in
declaration order. -/
def requiredNames (fields : List StructField) : List String :=
  (fields.filter (fun f => !f.omitempty)).map StructField.resolvedName

/-- All nodes of a schema tree: the root and, through every `Properties`
map, the nodes of the children. -/
def JSONSchema.nodes : JSONSchema → List JSONSchema
  | ⟨t, i, none, r⟩ => [⟨t, i, none, r⟩]
  | ⟨t, i, some m, r⟩ => ⟨t, i, some m, r⟩ :: nodesOfMap m
where
  /-- The nodes of the children stored in a map. -/
  nodesOfMap : List (String × JSONSchema) → List JSONSchema
    | [] => []
    | (_, c) :: rest => JSONSchema.nodes c ++ nodesOfMap rest

/-- The map after the loop of `doLoadFromStruct` has assigned, field by field,
the schema of the field's type under the field's resolved name. -/
def assignFields (m : List (String × JSONSchema)) (fields : List StructField) :
    List (String × JSONSchema) :=
  fields.foldl (fun m f => mapAssign m f.resolvedName (doLoad JSONSchema.fresh f.Type_ "")) m

/-- The slice after appending the given names one by one. -/
def appendAll (r : Option (List String)) (xs : List String) : Option (List String) :=
  xs.foldl appendStr r

mutual
/-- The types at the positions the walk gives a node of its own: the type
itself and, for a record, the types at the positions of its fields.  The
element types of slices and maps are not among them. -/
def GoType.walked : GoType → List GoType
  | .struct fields => .struct fields :: walkedFields fields
  | .basic k => [.basic k]
  | .array len elem => [.array len elem]
  | .chan elem => [.chan elem]
  | .func => [.func]
  | .interface => [.interface]
  | .map key elem => [.map key elem]
  | .ptr elem => [.ptr elem]
  | .slice elem => [.slice elem]
/-- The types at the positions of the given fields. -/
def walkedFields : List StructField → List GoType
  | [] => []
  | .mk _ _ fieldType :: rest => fieldType.walked ++ walkedFields rest
end

/-! ## Serialization (source lines 9-22) -/

/-- A JSON document: the strings, arrays and objects that `encoding/json`
writes for the two schema structs. -/
inductive Json
  | str (s : String)
  | arr (items : List Json)
  | obj (members : List (String × Json))

/-- The keys of a JSON object, in the order written (no keys for a string or
an array). -/
def Json.keys : Json → List String
  | .obj members => members.map Prod.fst
  | _ => []

/-- One struct field as `encoding/json` writes it: the key with the value,
or nothing when the field's tag has the option `omitempty` and the value is
empty (a nil pointer, an empty map or slice, an empty string). -/
def encodeField (key : String) (omitempty : Bool) (isEmpty : Bool) (val : Json) :
    List (String × Json) :=
  if omitempty && isEmpty then [] else [(key, val)]

/-- The encoding of a `JSONSchemaItems`, whose only field has the tag
`json:"type,omitempty"` (line 17). -/
def marshalItems (i : JSONSchemaItems) : Json :=
  .obj (encodeField "type" true (i.Type_ = "") (.str i.Type_))

/-- Insert a member into a list of members sorted by key (the keys are
compared character by character). -/
def insertMember (e : String × Json) : List (String × Json) → List (String × Json)
  | [] => [e]
  | x :: rest => if e.1.data ≤ x.1.data then e :: x :: rest else x :: insertMember e rest

/-- The members of a map's encoding: `encoding/json` writes map entries
sorted by key. -/
def sortMembers : List (String × Json) → List (String × Json)
  | [] => []
  | e :: rest => insertMember e (sortMembers rest)

/-- The method `Marshal`, as the document that `json.MarshalIndent` writes
for the receiver (the layout in lines indented by two spaces is not part of
the model; the encoder does not fail on these types).  The four fields are
written in declaration order under the keys of their tags (lines 10-13):
`type` has no `omitempty`, `items`, `properties` and `required` have it. -/
def Marshal : JSONSchema → Json
  | ⟨t, i, p, r⟩ =>
    .obj (encodeField "type" false (t = "") (.str t) ++
      encodeField "items" true i.isNone
        (match i with
          | some it => marshalItems it
          | none => .obj []) ++
      encodeField "properties" true
        (match p with
          | some m => m.isEmpty
          | none => true)
        (match p with
          | some m => .obj (sortMembers (marshalMap m))
          | none => .obj []) ++
      encodeField "required" true (r.getD []).isEmpty (.arr ((r.getD []).map Json.str)))
where
  /-- The encodings of the children stored in a map. -/
  marshalMap : List (String × JSONSchema) → List (String × Json)
    | [] => []
    | (k, c) :: rest => (k, Marshal c) :: marshalMap rest

/-! ## The walk over values

`Load` receives a value, not a type.  The definitions below run the same
source on values with contents, reading them the way the source does through
`reflect.Value`; `doLoadValue_eq` shows that the walk over the type above is
this walk. -/

mutual
/-- A Go value with its contents.  Every value carries what is needed to
know its type (`GoValue.typeOf`); slices, maps, channels, functions and
interfaces may be nil, a pointer is nil (`nilPtr`) or points to a value. -/
inductive GoValue
  | basic (k : BasicKind) (bytes : List Nat)
  | array (elem : GoType) (items : List GoValue)
  | chan (elem : GoType) (isNil : Bool)
  | func (isNil : Bool)
  | interface (dyn : Option GoValue)
  | map (key elem : GoType) (entries : Option (List (GoValue × GoValue)))
  | nilPtr (elem : GoType)
  | ptrTo (target : GoValue)
  | slice (elem : GoType) (items : Option (List GoValue))
  | struct (fields : List FieldValue)
/-- One field of a struct value: the declared name and tag, and the value
held (`Value.Field(i)`). -/
inductive FieldValue
  | mk (Name : String) (Tag : StructTag) (Value : GoValue)
end

mutual
/-- The type of a value (`Value.Type()`). -/
def GoValue.typeOf : GoValue → GoType
  | .basic k _ => .basic k
  | .array elem items => .array items.length elem
  | .chan elem _ => .chan elem
  | .func _ => .func
  | .interface _ => .interface
  | .map key elem _ => .map key elem
  | .nilPtr elem => .ptr elem
  | .ptrTo target => .ptr target.typeOf
  | .slice elem _ => .slice elem
  | .struct fields => .struct (typeOfFields fields)
/-- The declared fields of the type of a struct value. -/
def typeOfFields : List FieldValue → List StructField
  | [] => []
  | .mk fieldName fieldTag value :: rest =>
    .mk fieldName fieldTag value.typeOf :: typeOfFields rest
end

/-- The method `Value.Kind` on a value. -/
def GoValue.Kind : GoValue → Kind
  | .basic k _ => k.toKind
  | .array _ _ => .Array
  | .chan _ _ => .Chan
  | .func _ => .Func
  | .interface _ => .Interface
  | .map _ _ _ => .Map
  | .nilPtr _ => .Ptr
  | .ptrTo _ => .Ptr
  | .slice _ _ => .Slice
  | .struct _ => .Struct

/-- Whether the value is a nil pointer. -/
def GoValue.isNilPtr : GoValue → Bool
  | .nilPtr _ => true
  | _ => false

set_option linter.unusedVariables false in
mutual
/-- The method `doLoad` on a value: the source of lines 34-46, with the
body of `doLoadFromStruct` in the case `reflect.Struct` as in `doLoad`. -/
def doLoadValue (j : JSONSchema) (value : GoValue) (opts : tagOptions) : JSONSchema :=
  let kind := value.Kind
  let j := { j with Type_ := getTypeFromMapping kind }
  match value with
  | .slice elem _ => doLoadFromSlice j elem
  | .map _ elem _ => doLoadFromMap j elem
  | .struct fields =>
    doLoadFieldValues { j with Type_ := "object", Properties := some [] } fields
  | _ => j
/-- The loop of `doLoadFromStruct` (lines 69-85) over the fields of a struct
value. -/
def doLoadFieldValues (j : JSONSchema) : List FieldValue → JSONSchema
  | [] => j
  | .mk fieldName fieldTag value :: rest =>
    let tag := StructTag.Get fieldTag "json"
    let name := (parseTag tag).1
    let opts := (parseTag tag).2
    let name := if name = "" then fieldName else name
    let child := doLoadValue JSONSchema.fresh value opts
    let j := { j with Properties := some (mapAssign (j.Properties.getD []) name child) }
    let j := if !(tagOptions.Contains opts "omitempty") then
        { j with Required := appendStr j.Required name }
      else j
    doLoadFieldValues j rest
end

/-- The method `Load` on the value held by its `interface{}` argument
(`none` for the nil interface).  `reflect.ValueOf(variable).Elem()` panics
(result `none`) unless the value is a pointer; on a nil pointer it is the
zero Value, of kind Invalid. -/
def LoadValue (j : JSONSchema) (var : Option GoValue) : Option JSONSchema :=
  match var with
  | some (.nilPtr _) => some { j with Type_ := getTypeFromMapping Kind.Invalid }
  | some (.ptrTo target) => some (doLoadValue j target "")
  | _ => none

/-! ## The walk over type declarations that may refer to themselves

A Go type can refer to itself through a pointer, slice, map or channel
(`type Node struct { Next *Node }`); Go rejects a type that contains itself
by value.  In the descriptions below the element type of a pointer, slice,
map, channel or array is therefore the name of a declared type, looked up in
the declarations, while the fields of a record are given in place. -/

mutual
/-- A type whose element types are names of declared types. -/
inductive TypeExpr
  | basic (k : BasicKind)
  | array (len : Nat) (elem : String)
  | chan (elem : String)
  | func
  | interface
  | map (key elem : String)
  | ptr (elem : String)
  | slice (elem : String)
  | struct (fields : List FieldExpr)
/-- One declared field of a record of such a type. -/
inductive FieldExpr
  | mk (Name : String) (Tag : StructTag) (Type_ : TypeExpr)
end

/-- The type declarations: the type each name stands for. -/
abbrev Decls := String → TypeExpr

/-- The method `Type.Kind`. -/
def TypeExpr.Kind : TypeExpr → Kind
  | .basic k => k.toKind
  | .array _ _ => .Array
  | .chan _ => .Chan
  | .func => .Func
  | .interface => .Interface
  | .map _ _ => .Map
  | .ptr _ => .Ptr
  | .slice _ => .Slice
  | .struct _ => .Struct

/-- The method `doLoadFromSlice`; `decls elem` is `valueObject.Type().Elem()`. -/
def doLoadFromSliceRef (decls : Decls) (j : JSONSchema) (elem : String) : JSONSchema :=
  let k := (decls elem).Kind
  if k = Kind.Uint8 then { j with Type_ := "string" }
  else { j with Items := some { Type_ := getTypeFromMapping k } }

/-- The method `doLoadFromMap`; `decls elem` is `valueObject.Type().Elem()`. -/
def doLoadFromMapRef (decls : Decls) (j : JSONSchema) (elem : String) : JSONSchema :=
  let k := (decls elem).Kind
  { j with Properties := some (mapAssign [] ".*" ⟨getTypeFromMapping k, none, none, none⟩) }

set_option linter.unusedVariables false in
mutual
/-- The method `doLoad` on a value of a type given with declarations.  The
result is the updated receiver together with the number of calls of `doLoad`
made, this one included: `doLoadFromSlice` and `doLoadFromMap` hold no call,
the loop of `doLoadFromStruct` holds one per iteration (line 80). -/
def doLoadRef (decls : Decls) (j : JSONSchema) (value : TypeExpr) (opts : tagOptions) :
    JSONSchema × Nat :=
  let kind := value.Kind
  let j := { j with Type_ := getTypeFromMapping kind }
  match value with
  | .slice elem => (doLoadFromSliceRef decls j elem, 1)
  | .map _ elem => (doLoadFromMapRef decls j elem, 1)
  | .struct fields =>
    let r := doLoadFieldsRef decls { j with Type_ := "object", Properties := some [] } fields
    (r.1, 1 + r.2)
  | _ => (j, 1)
/-- The loop of `doLoadFromStruct` (lines 69-85), with the number of calls
of `doLoad` made in it. -/
def doLoadFieldsRef (decls : Decls) (j : JSONSchema) : List FieldExpr → JSONSchema × Nat
  | [] => (j, 0)
  | .mk fieldName fieldTag fieldType :: rest =>
    let tag := StructTag.Get fieldTag "json"
    let name := (parseTag tag).1
    let opts := (parseTag tag).2
    let name := if name = "" then fieldName else name
    let child := doLoadRef decls JSONSchema.fresh fieldType opts
    let j := { j with Properties := some (mapAssign (j.Properties.getD []) name child.1) }
    let j := if !(tagOptions.Contains opts "omitempty") then
        { j with Required := appendStr j.Required name }
      else j
    let r := doLoadFieldsRef decls j rest
    (r.1, child.2 + r.2)
end

mutual
/-- The number of fields of a record type, the fields of the records it
holds by value included. -/
def TypeExpr.fieldCount : TypeExpr → Nat
  | .struct fields => fieldCountOf fields
  | _ => 0
/-- The number of the given fields and of the fields beneath them. -/
def fieldCountOf : List FieldExpr → Nat
  | [] => 0
  | .mk _ _ fieldType :: rest => 1 + fieldType.fieldCount + fieldCountOf rest
end

/-- Some type of the given kind (for the kind Invalid, which no type has, a
function type). -/
def GoType.ofKind : JsonSchema.Kind → GoType
  | .Bool => .basic .Bool
  | .Int => .basic .Int
  | .Int8 => .basic .Int8
  | .Int16 => .basic .Int16
  | .Int32 => .basic .Int32
  | .Int64 => .basic .Int64
  | .Uint => .basic .Uint
  | .Uint8 => .basic .Uint8
  | .Uint16 => .basic .Uint16
  | .Uint32 => .basic .Uint32
  | .Uint64 => .basic .Uint64
  | .Uintptr => .basic .Uintptr
  | .Float32 => .basic .Float32
  | .Float64 => .basic .Float64
  | .Complex64 => .basic .Complex64
  | .Complex128 => .basic .Complex128
  | .String => .basic .String
  | .UnsafePointer => .basic .UnsafePointer
  | .Array => .array 0 .func
  | .Chan => .chan .func
  | .Func => .func
  | .Interface => .interface
  | .Map => .map .func .func
  | .Ptr => .ptr .func
  | .Slice => .slice .func
  | .Struct => .struct []
  | .Invalid => .func

mutual
/-- The finite tree that describes a type as far as the walk reads it: the
fields of records in full, of every element type its kind only. -/
def TypeExpr.approx (decls : Decls) : TypeExpr → GoType
  | .basic k => .basic k
  | .array len elem => .array len (GoType.ofKind (decls elem).Kind)
  | .chan elem => .chan (GoType.ofKind (decls elem).Kind)
  | .func => .func
  | .interface => .interface
  | .map key elem => .map (GoType.ofKind (decls key).Kind) (GoType.ofKind (decls elem).Kind)
  | .ptr elem => .ptr (GoType.ofKind (decls elem).Kind)
  | .slice elem => .slice (GoType.ofKind (decls elem).Kind)
  | .struct fields => .struct (approxFields decls fields)
/-- The fields of the tree of a record. -/
def approxFields (decls : Decls) : List FieldExpr → List StructField
  | [] => []
  | .mk fieldName fieldTag fieldType :: rest =>
    .mk fieldName fieldTag (fieldType.approx decls) :: approxFields decls rest
end

/-- Declarations with a record `Node` that refers to itself through a
pointer, a slice and a map:
`type Node struct { Next *Node; Kids []Node; M map[string]Node }`. -/
def nodeDecls : Decls := fun name =>
  if name = "Node" then
    .struct [.mk "Next" [] (.ptr "Node"), .mk "Kids" [] (.slice "Node"),
      .mk "M" [] (.map "string" "Node")]
  else if name = "string" then .basic .String
  else .basic .Int

/-! ## Lemmas on strings and tags -/

theorem comma_data : (",": String).data = [','] := rfl

theorem indexFrom_comma (l : List Char) (i : Nat) :
    strings.indexFrom [','] l i =
      if ',' ∈ l then (((i + (l.takeWhile (fun c => c != ',')).length : Nat)) : Int) else -1 := by
  induction l generalizing i with
  | nil => simp [strings.indexFrom]
  | cons c cs ih =>
    by_cases hc : c = ','
    · subst hc
      simp [strings.indexFrom]
    · have hc2 : ¬ (',' = c) := fun h => hc h.symm
      simp [strings.indexFrom, hc, hc2, ih]
      split
      · ring
      · rfl

theorem take_length_takeWhile (p : Char → Bool) (l : List Char) :
    l.take (l.takeWhile p).length = l.takeWhile p := by
  induction l with
  | nil => simp
  | cons c cs ih =>
    by_cases h : p c <;> simp [List.takeWhile, h, ih]

theorem drop_length_takeWhile (p : Char → Bool) (l : List Char) :
    l.drop (l.takeWhile p).length = l.dropWhile p := by
  induction l with
  | nil => simp
  | cons c cs ih =>
    by_cases h : p c <;> simp [List.takeWhile, List.dropWhile, h, ih]

theorem takeWhile_of_no_comma (l : List Char) (h : ',' ∉ l) :
    l.takeWhile (fun c => c != ',') = l := by
  induction l with
  | nil => simp
  | cons c cs ih =>
    simp at h
    have hc : c ≠ ',' := fun e => h.1 e.symm
    simp [List.takeWhile_cons, hc, ih h.2]

theorem dropWhile_of_no_comma (l : List Char) (h : ',' ∉ l) :
    l.dropWhile (fun c => c != ',') = [] := by
  induction l with
  | nil => simp
  | cons c cs ih =>
    simp at h
    have hc : c ≠ ',' := fun e => h.1 e.symm
    simp [List.dropWhile_cons, hc, ih h.2]

/-- `strings.Index(s, ",")` is `-1` exactly when `s` has no comma, and the
length of the part before the first comma otherwise. -/
theorem Index_comma (s : String) :
    strings.Index s "," =
      if ',' ∈ s.data then (((tagName s).data.length : Nat) : Int) else -1 := by
  simp [strings.Index, comma_data, indexFrom_comma, tagName]

/-- The code's `parseTag` cuts the tag at its first comma. -/
theorem parseTag_eq (tag : String) : parseTag tag = (tagName tag, tagRest tag) := by
  unfold parseTag
  simp only [Index_comma]
  by_cases h : ',' ∈ tag.data
  · have hne : ((((tagName tag).data.length : Nat) : Int) ≠ -1) := by omega
    simp only [h, if_true, hne, ne_eq, not_false_eq_true]
    simp only [sliceTo, sliceFrom, tagName, tagRest, Int.toNat_ofNat]
    have e : (((List.takeWhile (fun c => c != ',') tag.data).length : Int) + 1).toNat
        = (List.takeWhile (fun c => c != ',') tag.data).length + 1 := by omega
    rw [e, take_length_takeWhile, ← List.drop_drop, drop_length_takeWhile]
  · simp only [h, if_false, ne_eq, not_true_eq_false]
    simp [tagName, tagRest, takeWhile_of_no_comma _ h, dropWhile_of_no_comma _ h]

theorem splitCommas_ne_nil (l : List Char) : splitCommas l ≠ [] := by
  cases l with
  | nil => simp [splitCommas]
  | cons c cs =>
    unfold splitCommas
    split
    · simp
    · split <;> simp

/-- The tokens of a list: the part before the first comma, then the tokens
of what follows that comma. -/
theorem splitCommas_eq (l : List Char) :
    splitCommas l = l.takeWhile (fun c => c != ',') ::
      (if ',' ∈ l then splitCommas ((l.dropWhile (fun c => c != ',')).drop 1) else []) := by
  induction l with
  | nil => simp [splitCommas]
  | cons c cs ih =>
    by_cases hc : c = ','
    · subst hc
      simp [splitCommas]
    · have hc2 : ¬ (',' = c) := fun h => hc h.symm
      have e : splitCommas (c :: cs) = (match splitCommas cs with
          | [] => [[c]]
          | t :: ts => (c :: t) :: ts) := by
        rw [splitCommas]; simp [hc]
      rw [e, ih]
      simp [List.takeWhile_cons, List.dropWhile_cons, hc, hc2]

theorem string_eq_empty_iff (s : String) : s = "" ↔ s.data = [] := by
  constructor
  · intro h; subst h; rfl
  · intro h; exact String.ext h

theorem containsLoop_empty (n : String) (fuel : Nat) : containsLoop n fuel "" = false := by
  cases fuel <;> simp [containsLoop]

/-- With at least `len(s)` iterations allowed, the loop of `Contains` answers
whether the non-empty name is one of the comma-separated tokens of `s`. -/
theorem containsLoop_eq (n : String) (hn : n ≠ "") :
    ∀ (fuel : Nat) (s : String), s.length ≤ fuel →
      containsLoop n fuel s = decide (n ∈ tokens s) := by
  intro fuel
  induction fuel with
  | zero =>
    intro s hs
    have h0 : s.data = [] := List.length_eq_zero.mp (Nat.le_zero.mp hs)
    have : s = "" := (string_eq_empty_iff s).2 h0
    subst this
    simp [containsLoop, tokens, splitCommas]
    intro h; exact hn (h ▸ rfl)
  | succ fuel ih =>
    intro s hs
    by_cases he : s = ""
    · subst he
      simp [containsLoop, tokens, splitCommas]
      intro h; exact hn (h ▸ rfl)
    · have hd : s.data ≠ [] := fun h => he ((string_eq_empty_iff s).2 h)
      rw [containsLoop]
      simp only [he, if_false, Index_comma]
      have tk : tokens s = tagName s ::
          (if ',' ∈ s.data then tokens (tagRest s) else []) := by
        simp only [tokens, tagName, tagRest]
        rw [splitCommas_eq]
        split <;> simp
      by_cases hc : ',' ∈ s.data
      · have hge : ((((tagName s).data.length : Nat) : Int) ≥ 0) := by omega
        simp only [hc, if_true, hge]
        have e1 : sliceTo s (((tagName s).data.length : Nat) : Int) = tagName s := by
          simp [sliceTo, tagName, take_length_takeWhile]
        have e2 : sliceFrom s ((((tagName s).data.length : Nat) : Int) + 1) = tagRest s := by
          simp only [sliceFrom, tagName, tagRest]
          have e : (((List.takeWhile (fun c => c != ',') s.data).length : Int) + 1).toNat
              = (List.takeWhile (fun c => c != ',') s.data).length + 1 := by omega
          rw [e, ← List.drop_drop, drop_length_takeWhile]
        have hlen : (tagRest s).length ≤ fuel := by
          have h1 : (tagRest s).length = (s.data.dropWhile (fun c => c != ',')).length - 1 := by
            simp [tagRest, String.length]
          have h2 : (s.data.dropWhile (fun c => c != ',')).length ≤ s.data.length :=
            (List.dropWhile_sublist _).length_le
          have h3 : s.length = s.data.length := rfl
          have h4 : 0 < s.data.length := List.length_pos.mpr hd
          omega
        rw [e1, e2, ih _ hlen, tk]
        simp only [hc, if_true, List.mem_cons]
        by_cases hh : tagName s = n
        · simp [hh]
        · have hh2 : ¬ (n = tagName s) := fun h => hh h.symm
          simp [hh, hh2]
      · have hlt : ¬ ((-1 : Int) ≥ 0) := by omega
        simp only [hc, if_false, hlt, containsLoop_empty, tk, List.mem_singleton]
        by_cases hh : s = n
        · subst hh
          simp [tagName, takeWhile_of_no_comma _ hc]
        · have hh2 : ¬ (n = tagName s) := by
            intro h
            apply hh
            rw [h]
            simp [tagName, takeWhile_of_no_comma _ hc]
          simp [hh, hh2]

/-- The code's `Contains` is the membership test on the comma-separated
tokens, for a non-empty option name. -/
theorem Contains_eq (o n : String) (hn : n ≠ "") :
    tagOptions.Contains o n = decide (n ∈ tokens o) := by
  unfold tagOptions.Contains
  by_cases h0 : o.length = 0
  · have hd : o.data = [] := List.length_eq_zero.mp h0
    have : o = "" := (string_eq_empty_iff o).2 hd
    subst this
    simp [tokens, splitCommas]
    intro h; exact hn (h ▸ rfl)
  · simp only [h0, if_false]
    exact containsLoop_eq n hn _ _ (le_refl _)

theorem containsLoop_step (n : String) (fuel : Nat) (s : String) :
    containsLoop n (fuel + 1) s =
      if s = "" then false
      else if (if strings.Index s "," ≥ 0 then sliceTo s (strings.Index s ",") else s) = n
        then true
        else containsLoop n fuel
          (if strings.Index s "," ≥ 0 then sliceFrom s (strings.Index s "," + 1) else "") := by
  rw [containsLoop]

theorem tagRest_length_lt (s : String) (hd : s.data ≠ []) :
    (tagRest s).length < s.length := by
  have h1 : (tagRest s).length = (s.data.dropWhile (fun c => c != ',')).length - 1 := by
    simp [tagRest, String.length]
  have h2 : (s.data.dropWhile (fun c => c != ',')).length ≤ s.data.length :=
    (List.dropWhile_sublist _).length_le
  have h3 : s.length = s.data.length := rfl
  have h4 : 0 < s.data.length := List.length_pos.mpr hd
  omega

theorem sliceFrom_Index (s : String) (hc : ',' ∈ s.data) :
    sliceFrom s (strings.Index s "," + 1) = tagRest s := by
  have := parseTag_eq s
  simp only [parseTag, Index_comma, hc, if_true] at this
  have hne : ((((tagName s).data.length : Nat) : Int) ≠ -1) := by omega
  simp only [hne, ne_eq, not_false_eq_true, if_true] at this
  simp only [Index_comma, hc, if_true]
  exact (Prod.mk.inj this).2

/-- One more iteration than `len(s)` changes nothing. -/
theorem containsLoop_succ (n : String) :
    ∀ (fuel : Nat) (s : String), s.length ≤ fuel →
      containsLoop n (fuel + 1) s = containsLoop n fuel s := by
  intro fuel
  induction fuel with
  | zero =>
    intro s hs
    have h0 : s.data = [] := List.length_eq_zero.mp (Nat.le_zero.mp hs)
    have : s = "" := (string_eq_empty_iff s).2 h0
    subst this
    simp [containsLoop_empty]
  | succ fuel ih =>
    intro s hs
    by_cases he : s = ""
    · subst he
      simp [containsLoop_empty]
    · have hd : s.data ≠ [] := fun h => he ((string_eq_empty_iff s).2 h)
      rw [containsLoop_step n (fuel + 1) s, containsLoop_step n fuel s]
      simp only [he, if_false]
      by_cases hc : ',' ∈ s.data
      · have hge : strings.Index s "," ≥ 0 := by
          rw [Index_comma]; simp only [hc, if_true]; omega
        simp only [hge, if_true]
        rw [sliceFrom_Index s hc]
        have := tagRest_length_lt s hd
        rw [ih (tagRest s) (by omega)]
      · have hlt : ¬ (strings.Index s "," ≥ 0) := by
          rw [Index_comma]; simp only [hc, if_false]; omega
        simp only [hlt, if_false, containsLoop_empty]

/-- More iterations than `len(s)` do not change the answer of the loop: the
bound in `tagOptions.Contains` never cuts the loop short. -/
theorem containsLoop_fuel (n : String) (s : String) (k : Nat) :
    containsLoop n (s.length + k) s = containsLoop n s.length s := by
  induction k with
  | zero => rfl
  | succ k ih =>
    rw [← ih]
    exact containsLoop_succ n (s.length + k) s (Nat.le_add_right _ _)

/-! ## Lemmas on maps and slices -/

theorem mem_mapKeys_mapAssign (m : List (String × JSONSchema)) (k : String) (v : JSONSchema)
    (k' : String) : k' ∈ mapKeys (mapAssign m k v) ↔ k' = k ∨ k' ∈ mapKeys m := by
  induction m with
  | nil => simp [mapAssign, mapKeys]
  | cons e rest ih =>
    obtain ⟨a, b⟩ := e
    by_cases h : a = k
    · subst h
      simp [mapAssign, mapKeys]
    · simp only [mapKeys] at ih
      simp only [mapAssign, h, if_false, mapKeys, List.map_cons, List.mem_cons, ih]
      tauto

theorem mapIndex_mapAssign (m : List (String × JSONSchema)) (k : String) (v : JSONSchema)
    (k' : String) :
    mapIndex (mapAssign m k v) k' = if k' = k then some v else mapIndex m k' := by
  induction m with
  | nil =>
    by_cases h : k' = k
    · subst h; simp [mapAssign, mapIndex]
    · have h2 : ¬ (k = k') := fun e => h e.symm
      simp [mapAssign, mapIndex, h, h2]
  | cons e rest ih =>
    obtain ⟨a, b⟩ := e
    by_cases h : a = k
    · subst h
      by_cases h2 : a = k'
      · subst h2; simp [mapAssign, mapIndex]
      · have h3 : ¬ (k' = a) := fun e => h2 e.symm
        simp [mapAssign, mapIndex, h2, h3]
    · by_cases h2 : a = k'
      · subst h2
        simp [mapAssign, mapIndex, h]
      · simp [mapAssign, mapIndex, h, h2, ih]

theorem nodup_mapKeys_mapAssign (m : List (String × JSONSchema)) (k : String) (v : JSONSchema)
    (h : (mapKeys m).Nodup) : (mapKeys (mapAssign m k v)).Nodup := by
  induction m with
  | nil => simp [mapAssign, mapKeys]
  | cons e rest ih =>
    obtain ⟨a, b⟩ := e
    by_cases hk : a = k
    · subst hk
      simpa [mapAssign, mapKeys] using h
    · have h' : a ∉ mapKeys rest ∧ (mapKeys rest).Nodup := by
        simpa [mapKeys] using h
      have hmem := mem_mapKeys_mapAssign rest k v a
      have ih' := ih h'.2
      simp only [mapAssign, hk, if_false]
      show (a :: mapKeys (mapAssign rest k v)).Nodup
      refine List.nodup_cons.mpr ⟨?_, ih'⟩
      rw [hmem]
      tauto

theorem mem_mapAssign (m : List (String × JSONSchema)) (k : String) (v : JSONSchema)
    (e : String × JSONSchema) (h : e ∈ mapAssign m k v) : e = (k, v) ∨ e ∈ m := by
  induction m with
  | nil => simpa [mapAssign] using h
  | cons x rest ih =>
    obtain ⟨a, b⟩ := x
    by_cases hk : a = k
    · subst hk
      simp only [mapAssign, if_true, List.mem_cons] at h
      rcases h with h | h
      · exact Or.inl h
      · exact Or.inr (List.mem_cons_of_mem _ h)
    · simp only [mapAssign, hk, if_false, List.mem_cons] at h
      rcases h with h | h
      · exact Or.inr (h ▸ List.mem_cons_self _ _)
      · rcases ih h with h | h
        · exact Or.inl h
        · exact Or.inr (List.mem_cons_of_mem _ h)

theorem assignFields_cons (m : List (String × JSONSchema)) (f : StructField)
    (rest : List StructField) :
    assignFields m (f :: rest) =
      assignFields (mapAssign m f.resolvedName (doLoad JSONSchema.fresh f.Type_ "")) rest := rfl

theorem assignFields_append (m : List (String × JSONSchema)) (xs ys : List StructField) :
    assignFields m (xs ++ ys) = assignFields (assignFields m xs) ys := by
  simp [assignFields, List.foldl_append]

theorem mem_mapKeys_assignFields (fields : List StructField) :
    ∀ (m : List (String × JSONSchema)) (k : String),
      k ∈ mapKeys (assignFields m fields) ↔
        k ∈ mapKeys m ∨ k ∈ fields.map StructField.resolvedName := by
  induction fields with
  | nil => intro m k; simp [assignFields]
  | cons f rest ih =>
    intro m k
    rw [assignFields_cons, ih, mem_mapKeys_mapAssign]
    simp only [List.map_cons, List.mem_cons]
    tauto

theorem nodup_mapKeys_assignFields (fields : List StructField) :
    ∀ (m : List (String × JSONSchema)), (mapKeys m).Nodup →
      (mapKeys (assignFields m fields)).Nodup := by
  induction fields with
  | nil => intro m h; simpa [assignFields] using h
  | cons f rest ih =>
    intro m h
    rw [assignFields_cons]
    exact ih _ (nodup_mapKeys_mapAssign m _ _ h)

theorem mapIndex_assignFields_other (fields : List StructField) (k : String)
    (h : ∀ g ∈ fields, g.resolvedName ≠ k) :
    ∀ (m : List (String × JSONSchema)), mapIndex (assignFields m fields) k = mapIndex m k := by
  induction fields with
  | nil => intro m; simp [assignFields]
  | cons f rest ih =>
    intro m
    rw [assignFields_cons, ih (fun g hg => h g (List.mem_cons_of_mem _ hg)),
      mapIndex_mapAssign]
    have : ¬ (k = f.resolvedName) := fun e => h f (List.mem_cons_self _ _) e.symm
    simp [this]

theorem mem_assignFields (fields : List StructField) :
    ∀ (m : List (String × JSONSchema)) (e : String × JSONSchema),
      e ∈ assignFields m fields →
        e ∈ m ∨ ∃ f ∈ fields, e = (f.resolvedName, doLoad JSONSchema.fresh f.Type_ "") := by
  induction fields with
  | nil => intro m e h; exact Or.inl (by simpa [assignFields] using h)
  | cons f rest ih =>
    intro m e h
    rw [assignFields_cons] at h
    rcases ih _ e h with h | ⟨g, hg, he⟩
    · rcases mem_mapAssign _ _ _ _ h with h | h
      · exact Or.inr ⟨f, List.mem_cons_self _ _, h⟩
      · exact Or.inl h
    · exact Or.inr ⟨g, List.mem_cons_of_mem _ hg, he⟩

theorem appendAll_some (xs : List String) :
    ∀ (r : List String), appendAll (some r) xs = some (r ++ xs) := by
  induction xs with
  | nil => intro r; simp [appendAll]
  | cons x rest ih =>
    intro r
    have : appendAll (some r) (x :: rest) = appendAll (some (r ++ [x])) rest := rfl
    rw [this, ih]
    simp

theorem appendAll_none (xs : List String) :
    appendAll none xs = if xs = [] then none else some xs := by
  cases xs with
  | nil => rfl
  | cons x rest =>
    have : appendAll none (x :: rest) = appendAll (some [x]) rest := rfl
    rw [this, appendAll_some]
    simp

/-! ## Lemmas on the walk -/

theorem doLoad_opts (j : JSONSchema) (t : GoType) (o o' : tagOptions) :
    doLoad j t o = doLoad j t o' := by
  cases t <;> simp [doLoad]

theorem doLoad_slice (j : JSONSchema) (elem : GoType) (o : tagOptions) :
    doLoad j (.slice elem) o = doLoadFromSlice { j with Type_ := "array" } elem := by
  simp [doLoad, GoType.Kind, getTypeFromMapping, mapping]

theorem doLoad_map (j : JSONSchema) (key elem : GoType) (o : tagOptions) :
    doLoad j (.map key elem) o = doLoadFromMap { j with Type_ := "object" } elem := by
  simp [doLoad, GoType.Kind, getTypeFromMapping, mapping]

/-- The case `reflect.Struct` of `doLoad` is the call of `doLoadFromStruct`. -/
theorem doLoad_struct (j : JSONSchema) (fields : List StructField) (o : tagOptions) :
    doLoad j (.struct fields) o = doLoadFromStruct { j with Type_ := "object" } fields := by
  simp [doLoad, doLoadFromStruct]

theorem doLoad_other (j : JSONSchema) (t : GoType) (o : tagOptions)
    (h1 : t.Kind ≠ Kind.Slice) (h2 : t.Kind ≠ Kind.Map) (h3 : t.Kind ≠ Kind.Struct) :
    doLoad j t o = { j with Type_ := getTypeFromMapping t.Kind } := by
  cases t <;> simp_all [doLoad, GoType.Kind]

theorem resolvedName_mk (n : String) (tag : StructTag) (t : GoType) :
    (StructField.mk n tag t).resolvedName =
      if (parseTag (StructTag.Get tag "json")).1 = "" then n
      else (parseTag (StructTag.Get tag "json")).1 := by
  simp only [StructField.resolvedName, parseTag_eq, StructField.Tag, StructField.Name]
  split <;> simp_all

theorem omitempty_mk (n : String) (tag : StructTag) (t : GoType) :
    tagOptions.Contains (parseTag (StructTag.Get tag "json")).2 "omitempty" =
      (StructField.mk n tag t).omitempty := by
  rw [Contains_eq _ _ (by decide)]
  simp [StructField.omitempty, parseTag_eq, StructField.Tag]

theorem requiredNames_cons (f : StructField) (rest : List StructField) :
    requiredNames (f :: rest) =
      if f.omitempty then requiredNames rest else f.resolvedName :: requiredNames rest := by
  cases h : f.omitempty <;> simp [requiredNames, List.filter_cons, h]

/-- What the loop of `doLoadFromStruct` leaves in the receiver. -/
theorem doLoadFields_eq (fields : List StructField) :
    ∀ (t : String) (i : Option JSONSchemaItems) (m : List (String × JSONSchema))
      (r : Option (List String)),
      doLoadFields ⟨t, i, some m, r⟩ fields =
        ⟨t, i, some (assignFields m fields), appendAll r (requiredNames fields)⟩ := by
  induction fields with
  | nil => intro t i m r; simp [doLoadFields, assignFields, appendAll, requiredNames]
  | cons f rest ih =>
    intro t i m r
    obtain ⟨n, tag, ft⟩ := f
    rw [doLoadFields]
    simp only [← resolvedName_mk n tag ft, omitempty_mk n tag ft, Option.getD_some]
    rw [doLoad_opts _ ft _ ""]
    rw [assignFields_cons, requiredNames_cons]
    cases h : (StructField.mk n tag ft).omitempty
    · simp only [Bool.not_false, if_true, ih]
      simp [StructField.Type_, appendAll]
    · simp [ih, StructField.Type_]

/-- `doLoadFromStruct` in closed form. -/
theorem doLoadFromStruct_eq (j : JSONSchema) (fields : List StructField) :
    doLoadFromStruct j fields =
      ⟨"object", j.Items, some (assignFields [] fields),
        appendAll j.Required (requiredNames fields)⟩ := by
  simp [doLoadFromStruct, doLoadFields_eq]

theorem Load_pointerTo (j : JSONSchema) (t : GoType) :
    Load j (Variable.pointerTo t) = some (doLoad j t "") := by
  simp [Load, Variable.pointerTo]

/-! ## The claims -/

/-- C1: `getTypeFromMapping` is exactly the classification table: Bool gives
"bool", the ten integer kinds give "integer", the two float kinds give
"number", String gives "string", Slice gives "array", Map and Struct give
"object", and each of the ten other kinds gives the empty string. -/
theorem getTypeFromMapping_table :
    getTypeFromMapping Kind.Bool = "bool" ∧
    getTypeFromMapping Kind.Int = "integer" ∧
    getTypeFromMapping Kind.Int8 = "integer" ∧
    getTypeFromMapping Kind.Int16 = "integer" ∧
    getTypeFromMapping Kind.Int32 = "integer" ∧
    getTypeFromMapping Kind.Int64 = "integer" ∧
    getTypeFromMapping Kind.Uint = "integer" ∧
    getTypeFromMapping Kind.Uint8 = "integer" ∧
    getTypeFromMapping Kind.Uint16 = "integer" ∧
    getTypeFromMapping Kind.Uint32 = "integer" ∧
    getTypeFromMapping Kind.Uint64 = "integer" ∧
    getTypeFromMapping Kind.Float32 = "number" ∧
    getTypeFromMapping Kind.Float64 = "number" ∧
    getTypeFromMapping Kind.String = "string" ∧
    getTypeFromMapping Kind.Slice = "array" ∧
    getTypeFromMapping Kind.Map = "object" ∧
    getTypeFromMapping Kind.Struct = "object" ∧
    getTypeFromMapping Kind.Invalid = "" ∧
    getTypeFromMapping Kind.Uintptr = "" ∧
    getTypeFromMapping Kind.Complex64 = "" ∧
    getTypeFromMapping Kind.Complex128 = "" ∧
    getTypeFromMapping Kind.Array = "" ∧
    getTypeFromMapping Kind.Chan = "" ∧
    getTypeFromMapping Kind.Func = "" ∧
    getTypeFromMapping Kind.Interface = "" ∧
    getTypeFromMapping Kind.Ptr = "" ∧
    getTypeFromMapping Kind.UnsafePointer = "" := by
  decide

/-- C2: for every record type, `Load` on a fresh schema sets `Type` to
"object" and fills a `Properties` map whose keys are exactly the resolved
names of the declared fields (each key once); a field without a json tag,
with an empty json tag or with a json tag that starts with a comma resolves
to its own name. -/
theorem Load_struct_properties (fields : List StructField) :
    ∃ s m, Load JSONSchema.fresh (Variable.pointerTo (.struct fields)) = some s ∧
      s.Type_ = "object" ∧ s.Properties = some m ∧
      (∀ k, k ∈ mapKeys m ↔ k ∈ fields.map StructField.resolvedName) ∧
      (mapKeys m).Nodup ∧
      (∀ n t, (StructField.mk n [] t).resolvedName = n) ∧
      (∀ n v t, (StructField.mk n [("xml", v)] t).resolvedName = n) ∧
      (∀ n rest t, (StructField.mk n (("json", "") :: rest) t).resolvedName = n) ∧
      (∀ n o rest t, (StructField.mk n (("json", "," ++ o) :: rest) t).resolvedName = n) := by
  refine ⟨_, assignFields [] fields, Load_pointerTo _ _, ?_, ?_, ?_, ?_, ?_, ?_, ?_, ?_⟩
  · rw [doLoad_struct, doLoadFromStruct_eq]
  · rw [doLoad_struct, doLoadFromStruct_eq]
  · intro k
    rw [mem_mapKeys_assignFields]
    simp [mapKeys]
  · exact nodup_mapKeys_assignFields fields [] (by simp [mapKeys])
  · intro n t
    simp [StructField.resolvedName, StructField.Tag, StructField.Name, StructTag.Get, tagName]
  · intro n v t
    simp [StructField.resolvedName, StructField.Tag, StructField.Name, StructTag.Get, tagName]
  · intro n rest t
    simp [StructField.resolvedName, StructField.Tag, StructField.Name, StructTag.Get, tagName]
  · intro n o rest t
    simp [StructField.resolvedName, StructField.Tag, StructField.Name, StructTag.Get, tagName]

/-- C3: for every record type, `Load` on a fresh schema leaves in `Required`
the resolved names, in declaration order, of exactly the fields whose tag
options do not hold the token `omitempty`; `Required` stays nil when there is
no such field (every field carries `omitempty`, or there is no field).  For
the record with fields `A string` and `B int` tagged `b,omitempty` the result
has the keys `A` and `b` with child types "string" and "integer", and
`Required` is `["A"]`. -/
theorem Load_struct_required (fields : List StructField) :
    ∃ s, Load JSONSchema.fresh (Variable.pointerTo (.struct fields)) = some s ∧
      s.Required = (if requiredNames fields = [] then none else some (requiredNames fields)) ∧
      (s.Required = none ↔ fields.all (fun f => f.omitempty) = true) ∧
      Load JSONSchema.fresh (Variable.pointerTo (.struct
          [.mk "A" [] (.basic .String), .mk "B" [("json", "b,omitempty")] (.basic .Int)])) =
        some ⟨"object", none,
          some [("A", ⟨"string", none, none, none⟩), ("b", ⟨"integer", none, none, none⟩)],
          some ["A"]⟩ := by
  refine ⟨_, Load_pointerTo _ _, ?_, ?_, rfl⟩
  · rw [doLoad_struct, doLoadFromStruct_eq]
    exact appendAll_none _
  · rw [doLoad_struct, doLoadFromStruct_eq]
    show appendAll none _ = none ↔ _
    rw [appendAll_none]
    simp [requiredNames, List.filter_eq_nil_iff]

/-- C4: for every record type and every field of it whose resolved name no
other field of the record shares, the child stored under that name in
`Properties` is the schema `Load` produces on a fresh schema for a value of
the field's type; when that type is itself a record the child has `Type`
"object", a `Properties` map keyed by the resolved names of the inner fields
and the inner record's `Required`. -/
theorem Load_struct_child (pre post : List StructField) (f : StructField)
    (huniq : ∀ g ∈ pre ++ post, g.resolvedName ≠ f.resolvedName) :
    ∃ s m child,
      Load JSONSchema.fresh (Variable.pointerTo (.struct (pre ++ f :: post))) = some s ∧
      s.Properties = some m ∧
      mapIndex m f.resolvedName = some child ∧
      Load JSONSchema.fresh (Variable.pointerTo f.Type_) = some child ∧
      (∀ fs, f.Type_ = .struct fs →
        child.Type_ = "object" ∧
        (∃ cm, child.Properties = some cm ∧
          ∀ k, k ∈ mapKeys cm ↔ k ∈ fs.map StructField.resolvedName) ∧
        child.Required =
          (if requiredNames fs = [] then none else some (requiredNames fs))) := by
  refine ⟨_, assignFields [] (pre ++ f :: post), doLoad JSONSchema.fresh f.Type_ "",
    Load_pointerTo _ _, ?_, ?_, Load_pointerTo _ _, ?_⟩
  · rw [doLoad_struct, doLoadFromStruct_eq]
  · rw [assignFields_append, assignFields_cons,
      mapIndex_assignFields_other post _
        (fun g hg => huniq g (List.mem_append_right _ hg)),
      mapIndex_mapAssign]
    simp
  · intro fs hfs
    rw [hfs, doLoad_struct, doLoadFromStruct_eq]
    refine ⟨rfl, ⟨_, rfl, ?_⟩, appendAll_none _⟩
    intro k
    rw [mem_mapKeys_assignFields]
    simp [mapKeys]

/-- Witness for C4: a record whose second field, tagged `inner`, is itself a
record. -/
theorem Load_struct_child_witness :
    (∀ g ∈ [StructField.mk "A" [] (.basic .String)] ++
        [StructField.mk "C" [("json", "c,omitempty")] (.slice (.basic .Int))],
      g.resolvedName ≠
        (StructField.mk "B" [("json", "inner")]
          (.struct [.mk "X" [] (.basic .Bool)])).resolvedName) ∧
    ∃ s m child,
      Load JSONSchema.fresh (Variable.pointerTo (.struct
        ([StructField.mk "A" [] (.basic .String)] ++
          StructField.mk "B" [("json", "inner")] (.struct [.mk "X" [] (.basic .Bool)]) ::
          [StructField.mk "C" [("json", "c,omitempty")] (.slice (.basic .Int))]))) = some s ∧
      s.Properties = some m ∧
      mapIndex m (StructField.mk "B" [("json", "inner")]
        (.struct [.mk "X" [] (.basic .Bool)])).resolvedName = some child ∧
      Load JSONSchema.fresh (Variable.pointerTo (StructField.mk "B" [("json", "inner")]
        (.struct [.mk "X" [] (.basic .Bool)])).Type_) = some child ∧
      (∀ fs, (StructField.mk "B" [("json", "inner")]
          (.struct [.mk "X" [] (.basic .Bool)])).Type_ = .struct fs →
        child.Type_ = "object" ∧
        (∃ cm, child.Properties = some cm ∧
          ∀ k, k ∈ mapKeys cm ↔ k ∈ fs.map StructField.resolvedName) ∧
        child.Required =
          (if requiredNames fs = [] then none else some (requiredNames fs))) :=
  ⟨by decide, Load_struct_child _ _ _ (by decide)⟩

/-- C5: for every slice type whose element kind is Uint8, `Load` on a fresh
schema gives `Type` "string" and leaves `Items`, `Properties` and `Required`
unset. -/
theorem Load_byte_slice (elem : GoType) (h : elem.Kind = Kind.Uint8) :
    Load JSONSchema.fresh (Variable.pointerTo (.slice elem)) =
      some ⟨"string", none, none, none⟩ := by
  rw [Load_pointerTo, doLoad_slice]
  simp [doLoadFromSlice, h, JSONSchema.fresh]

/-- Witness for C5: the type `[]uint8`. -/
theorem Load_byte_slice_witness :
    (GoType.basic BasicKind.Uint8).Kind = Kind.Uint8 ∧
    Load JSONSchema.fresh (Variable.pointerTo (.slice (.basic .Uint8))) =
      some ⟨"string", none, none, none⟩ :=
  ⟨by decide, Load_byte_slice _ (by decide)⟩

/-- C6: for every slice type whose element kind is not Uint8, `Load` on a
fresh schema gives `Type` "array", `Items.Type` the table entry of the
element kind, and leaves `Properties` and `Required` unset; two element types
of the same kind give the same result, and a slice of records gives
`Items.Type` "object" and nothing about the record's fields. -/
theorem Load_slice (elem : GoType) (h : elem.Kind ≠ Kind.Uint8) :
    Load JSONSchema.fresh (Variable.pointerTo (.slice elem)) =
      some ⟨"array", some ⟨getTypeFromMapping elem.Kind⟩, none, none⟩ ∧
    (∀ elem2 : GoType, elem2.Kind = elem.Kind →
      Load JSONSchema.fresh (Variable.pointerTo (.slice elem2)) =
        Load JSONSchema.fresh (Variable.pointerTo (.slice elem))) ∧
    (∀ fields : List StructField,
      Load JSONSchema.fresh (Variable.pointerTo (.slice (.struct fields))) =
        some ⟨"array", some ⟨"object"⟩, none, none⟩) := by
  refine ⟨?_, ?_, ?_⟩
  · rw [Load_pointerTo, doLoad_slice]
    simp [doLoadFromSlice, h, JSONSchema.fresh]
  · intro elem2 h2
    rw [Load_pointerTo, Load_pointerTo, doLoad_slice, doLoad_slice]
    simp [doLoadFromSlice, h2]
  · intro fields
    rw [Load_pointerTo, doLoad_slice]
    simp [doLoadFromSlice, GoType.Kind, JSONSchema.fresh, getTypeFromMapping, mapping]

/-- Witness for C6: a slice of int gives `Type` "array" and `Items.Type`
"integer". -/
theorem Load_slice_witness :
    (GoType.basic BasicKind.Int).Kind ≠ Kind.Uint8 ∧
    (Load JSONSchema.fresh (Variable.pointerTo (.slice (.basic .Int))) =
      some ⟨"array", some ⟨"integer"⟩, none, none⟩ ∧
    (∀ elem2 : GoType, elem2.Kind = (GoType.basic BasicKind.Int).Kind →
      Load JSONSchema.fresh (Variable.pointerTo (.slice elem2)) =
        Load JSONSchema.fresh (Variable.pointerTo (.slice (.basic .Int)))) ∧
    (∀ fields : List StructField,
      Load JSONSchema.fresh (Variable.pointerTo (.slice (.struct fields))) =
        some ⟨"array", some ⟨"object"⟩, none, none⟩)) :=
  ⟨by decide, Load_slice (.basic .Int) (by decide)⟩

/-- C7: for every map type, `Load` on a fresh schema gives `Type` "object",
no `Items`, no `Required`, and a `Properties` map with the single key ".*"
whose child has as `Type` the table entry of the map's value kind and nothing
else set; the key type plays no part. -/
theorem Load_map (key elem : GoType) :
    Load JSONSchema.fresh (Variable.pointerTo (.map key elem)) =
      some ⟨"object", none,
        some [(".*", ⟨getTypeFromMapping elem.Kind, none, none, none⟩)], none⟩ ∧
    (∀ key2 : GoType,
      Load JSONSchema.fresh (Variable.pointerTo (.map key2 elem)) =
        Load JSONSchema.fresh (Variable.pointerTo (.map key elem))) := by
  refine ⟨?_, ?_⟩
  · rw [Load_pointerTo, doLoad_map]
    simp [doLoadFromMap, mapAssign, JSONSchema.fresh]
  · intro key2
    rw [Load_pointerTo, Load_pointerTo, doLoad_map, doLoad_map]

/-- C8: for every value whose kind is none of slice, map and struct, `Load`
on a fresh schema does not fail and gives the schema whose `Type` is the
table entry of the kind, with `Items`, `Properties` and `Required` unset; for
a pointer, interface, function, channel or fixed-size array that `Type` is
the empty string.  The same holds for the zero Value (kind Invalid) that
`Load` reads through a nil pointer. -/
theorem Load_leaf (t : GoType) (h1 : t.Kind ≠ Kind.Slice) (h2 : t.Kind ≠ Kind.Map)
    (h3 : t.Kind ≠ Kind.Struct) :
    Load JSONSchema.fresh (Variable.pointerTo t) =
      some ⟨getTypeFromMapping t.Kind, none, none, none⟩ ∧
    (t.Kind ∈ [Kind.Ptr, Kind.Interface, Kind.Func, Kind.Chan, Kind.Array] →
      Load JSONSchema.fresh (Variable.pointerTo t) = some ⟨"", none, none, none⟩) ∧
    Load JSONSchema.fresh ⟨some (.ptr t), true⟩ =
      some ⟨getTypeFromMapping Kind.Invalid, none, none, none⟩ := by
  have e : Load JSONSchema.fresh (Variable.pointerTo t) =
      some ⟨getTypeFromMapping t.Kind, none, none, none⟩ := by
    rw [Load_pointerTo, doLoad_other _ _ _ h1 h2 h3]
    rfl
  refine ⟨e, ?_, rfl⟩
  intro hk
  rw [e]
  simp only [List.mem_cons, List.mem_singleton, List.not_mem_nil, or_false] at hk
  rcases hk with hk | hk | hk | hk | hk <;> rw [hk] <;> rfl

/-- Witness for C8: a pointer to int. -/
theorem Load_leaf_witness :
    (GoType.ptr (.basic .Int)).Kind ≠ Kind.Slice ∧
    (GoType.ptr (.basic .Int)).Kind ≠ Kind.Map ∧
    (GoType.ptr (.basic .Int)).Kind ≠ Kind.Struct ∧
    (Load JSONSchema.fresh (Variable.pointerTo (.ptr (.basic .Int))) =
      some ⟨getTypeFromMapping (GoType.ptr (.basic .Int)).Kind, none, none, none⟩ ∧
    ((GoType.ptr (.basic .Int)).Kind ∈
        [Kind.Ptr, Kind.Interface, Kind.Func, Kind.Chan, Kind.Array] →
      Load JSONSchema.fresh (Variable.pointerTo (.ptr (.basic .Int))) =
        some ⟨"", none, none, none⟩) ∧
    Load JSONSchema.fresh ⟨some (.ptr (.ptr (.basic .Int))), true⟩ =
      some ⟨getTypeFromMapping Kind.Invalid, none, none, none⟩) :=
  ⟨by decide, by decide, by decide, Load_leaf _ (by decide) (by decide) (by decide)⟩

/-- Induction over Go types: a property that holds for every type that is
not a struct, and for a struct whenever it holds for the types of its fields,
holds for every type. -/
theorem GoType.struct_induction {P : GoType → Prop}
    (hleaf : ∀ t : GoType, (∀ fields, t ≠ .struct fields) → P t)
    (hstruct : ∀ fields : List StructField, (∀ f ∈ fields, P f.Type_) → P (.struct fields)) :
    ∀ t, P t := by
  intro t
  refine @GoType.rec P (fun f => P f.Type_) (fun l => ∀ f ∈ l, P f.Type_)
    ?_ ?_ ?_ ?_ ?_ ?_ ?_ ?_ ?_ ?_ ?_ ?_ t
  · intro k; exact hleaf _ (by intro fields h; cases h)
  · intro len elem _; exact hleaf _ (by intro fields h; cases h)
  · intro elem _; exact hleaf _ (by intro fields h; cases h)
  · exact hleaf _ (by intro fields h; cases h)
  · exact hleaf _ (by intro fields h; cases h)
  · intro key elem _ _; exact hleaf _ (by intro fields h; cases h)
  · intro elem _; exact hleaf _ (by intro fields h; cases h)
  · intro elem _; exact hleaf _ (by intro fields h; cases h)
  · intro fields ih; exact hstruct fields ih
  · intro n tag ty h; exact h
  · intro f hf; cases hf
  · intro head tail hh ht f hf
    rcases List.mem_cons.mp hf with h | h
    · rw [h]; exact hh
    · exact ht f h

theorem nodes_none (t : String) (i : Option JSONSchemaItems) (r : Option (List String)) :
    JSONSchema.nodes ⟨t, i, none, r⟩ = [⟨t, i, none, r⟩] := by
  rw [JSONSchema.nodes]

theorem nodes_some (t : String) (i : Option JSONSchemaItems) (m : List (String × JSONSchema))
    (r : Option (List String)) :
    JSONSchema.nodes ⟨t, i, some m, r⟩ =
      ⟨t, i, some m, r⟩ :: JSONSchema.nodes.nodesOfMap m := by
  rw [JSONSchema.nodes]

theorem self_mem_nodes (s : JSONSchema) : s ∈ s.nodes := by
  obtain ⟨t, i, p, r⟩ := s
  cases p with
  | none => simp [nodes_none]
  | some m => simp [nodes_some]

theorem mem_nodesOfMap (m : List (String × JSONSchema)) (n : JSONSchema) :
    n ∈ JSONSchema.nodes.nodesOfMap m ↔ ∃ e ∈ m, n ∈ e.2.nodes := by
  induction m with
  | nil => simp [JSONSchema.nodes.nodesOfMap]
  | cons e rest ih =>
    obtain ⟨k, c⟩ := e
    rw [JSONSchema.nodes.nodesOfMap]
    simp [ih]

/-- The nodes of a child are nodes of the parent. -/
theorem nodes_child (s : JSONSchema) (m : List (String × JSONSchema)) (hm : s.Properties = some m)
    (e : String × JSONSchema) (he : e ∈ m) (n : JSONSchema) (hn : n ∈ e.2.nodes) :
    n ∈ s.nodes := by
  obtain ⟨t, i, p, r⟩ := s
  simp only at hm
  subst hm
  rw [nodes_some]
  exact List.mem_cons_of_mem _ ((mem_nodesOfMap m n).2 ⟨e, he, hn⟩)

theorem getTypeFromMapping_array (k : Kind) : getTypeFromMapping k = "array" ↔ k = Kind.Slice := by
  cases k <;> decide

theorem basic_kind (k : BasicKind) :
    (GoType.basic k).Kind ≠ Kind.Slice ∧ (GoType.basic k).Kind ≠ Kind.Map ∧
      (GoType.basic k).Kind ≠ Kind.Struct := by
  cases k <;> decide

/-- At the root of what `doLoad` leaves in a fresh schema, `Items` is set
exactly when `Type` is "array". -/
theorem doLoad_root_items (t : GoType) (o : tagOptions) :
    (doLoad JSONSchema.fresh t o).Items.isSome = true ↔
      (doLoad JSONSchema.fresh t o).Type_ = "array" := by
  by_cases h1 : t.Kind = Kind.Slice
  · cases t with
    | slice elem =>
      rw [doLoad_slice]
      by_cases h : elem.Kind = Kind.Uint8
      · simp [doLoadFromSlice, h, JSONSchema.fresh]
      · simp [doLoadFromSlice, h, JSONSchema.fresh]
    | basic k => exact absurd h1 (basic_kind k).1
    | _ => simp [GoType.Kind] at h1
  · by_cases h2 : t.Kind = Kind.Map
    · cases t with
      | map key elem =>
        rw [doLoad_map]
        simp [doLoadFromMap, JSONSchema.fresh]
      | basic k => exact absurd h2 (basic_kind k).2.1
      | _ => simp [GoType.Kind] at h2
    · by_cases h3 : t.Kind = Kind.Struct
      · cases t with
        | struct fields =>
          rw [doLoad_struct, doLoadFromStruct_eq]
          simp [JSONSchema.fresh]
        | basic k => exact absurd h3 (basic_kind k).2.2
        | _ => simp [GoType.Kind] at h3
      · rw [doLoad_other _ _ _ h1 h2 h3]
        simp [JSONSchema.fresh, getTypeFromMapping_array, h1]

theorem nodes_of_no_properties (s : JSONSchema) (h : s.Properties = none) (n : JSONSchema)
    (hn : n ∈ s.nodes) : n = s := by
  obtain ⟨t, i, p, r⟩ := s
  simp only at h
  subst h
  simpa [nodes_none] using hn

/-- C9 fails as stated: for the record with fields `A string` and `B string`
tagged `A`, both fields resolve to the name "A", neither is marked
`omitempty`, and `Required` lists "A" twice. -/
theorem Required_at_most_once_counterexample :
    Load JSONSchema.fresh (Variable.pointerTo (.struct
        [.mk "A" [] (.basic .String), .mk "B" [("json", "A")] (.basic .String)])) =
      some ⟨"object", none, some [("A", ⟨"string", none, none, none⟩)], some ["A", "A"]⟩ ∧
    (Load JSONSchema.fresh (Variable.pointerTo (.struct
        [.mk "A" [] (.basic .String), .mk "B" [("json", "A")] (.basic .String)]))).map
      (fun s => decide ((s.Required.getD []).count "A" ≤ 1)) = some false :=
  ⟨rfl, by decide⟩

/-- C9, amended: for every record type, in the schema `Load` produces on a
fresh schema, a name appears in `Required` exactly as many times as the
record has fields that resolve to it and are not marked `omitempty`; so it
appears only if some field resolving to it is not marked `omitempty`, and at
most once when no two such fields share a resolved name. -/
theorem Load_struct_required_count (fields : List StructField) :
    ∃ s, Load JSONSchema.fresh (Variable.pointerTo (.struct fields)) = some s ∧
      (∀ n, (s.Required.getD []).count n =
        (fields.filter (fun f => !f.omitempty && f.resolvedName == n)).length) ∧
      (∀ n ∈ s.Required.getD [], ∃ f ∈ fields, f.resolvedName = n ∧ f.omitempty = false) ∧
      ((fields.filter (fun f => !f.omitempty)).Pairwise
          (fun f g => f.resolvedName ≠ g.resolvedName) →
        ∀ n, (s.Required.getD []).count n ≤ 1) := by
  have hreq : (doLoad JSONSchema.fresh (.struct fields) "").Required.getD [] =
      requiredNames fields := by
    rw [doLoad_struct, doLoadFromStruct_eq]
    show (appendAll none _).getD [] = _
    rw [appendAll_none]
    split
    · rename_i h; rw [h]; rfl
    · rfl
  refine ⟨_, Load_pointerTo _ _, ?_, ?_, ?_⟩
  · intro n
    rw [hreq, requiredNames, List.count_eq_countP, List.countP_eq_length_filter,
      List.filter_map, List.length_map, List.filter_filter]
    congr 1
    apply List.filter_congr
    intro f _
    simp [Bool.and_comm]
  · intro n hn
    rw [hreq] at hn
    simp only [requiredNames, List.mem_map, List.mem_filter] at hn
    obtain ⟨f, ⟨hf, ho⟩, hfn⟩ := hn
    exact ⟨f, hf, hfn, by simpa using ho⟩
  · intro hpw n
    rw [hreq]
    have hnd : (requiredNames fields).Nodup := by
      rw [requiredNames, List.Nodup, List.pairwise_map]
      exact hpw
    exact List.nodup_iff_count_le_one.mp hnd n

/-- C10 fails as stated: for a map whose values are slices of int, the child
under ".*" has `Type` "array" and no `Items`. -/
theorem Items_iff_array_counterexample :
    Load JSONSchema.fresh (Variable.pointerTo
        (.map (.basic .String) (.slice (.basic .Int)))) =
      some ⟨"object", none, some [(".*", ⟨"array", none, none, none⟩)], none⟩ ∧
    (⟨"array", none, none, none⟩ : JSONSchema) ∈
      (JSONSchema.nodes ⟨"object", none, some [(".*", ⟨"array", none, none, none⟩)], none⟩) :=
  ⟨rfl, by simp [nodes_some, nodes_none, JSONSchema.nodes.nodesOfMap]⟩

theorem self_mem_walked (t : GoType) : t ∈ t.walked := by
  cases t <;> simp [GoType.walked]

theorem walked_of_not_struct (t : GoType) (h : ∀ fields, t ≠ .struct fields) :
    t.walked = [t] := by
  cases t with
  | struct fields => exact absurd rfl (h fields)
  | _ => simp [GoType.walked]

theorem mem_walkedFields (fields : List StructField) (f : StructField) (hf : f ∈ fields)
    (x : GoType) (hx : x ∈ f.Type_.walked) : x ∈ walkedFields fields := by
  induction fields with
  | nil => cases hf
  | cons g rest ih =>
    obtain ⟨n, tag, ft⟩ := g
    rw [walkedFields]
    rcases List.mem_cons.mp hf with h | h
    · subst h
      exact List.mem_append_left _ hx
    · exact List.mem_append_right _ (ih h)

/-- Every node of the tree `doLoad` builds in a fresh schema is either the
schema `doLoad` builds for a type at a walked position, or the child that
`doLoadFromMap` stores under ".*" for a map at a walked position. -/
theorem doLoad_nodes_classified (t : GoType) :
    ∀ n ∈ (doLoad JSONSchema.fresh t "").nodes,
      (∃ t2 ∈ t.walked, n = doLoad JSONSchema.fresh t2 "") ∨
      (∃ key elem, GoType.map key elem ∈ t.walked ∧
        n = ⟨getTypeFromMapping elem.Kind, none, none, none⟩) := by
  induction t using GoType.struct_induction with
  | hleaf t hns =>
    intro n hn
    rw [walked_of_not_struct t hns]
    by_cases hp : (doLoad JSONSchema.fresh t "").Properties = none
    · have := nodes_of_no_properties _ hp n hn
      exact Or.inl ⟨t, List.mem_singleton.mpr rfl, this⟩
    · cases t with
      | map key elem =>
        have hd : doLoad JSONSchema.fresh (.map key elem) "" =
            ⟨"object", none, some [(".*", ⟨getTypeFromMapping elem.Kind, none, none, none⟩)],
              none⟩ := by
          rw [doLoad_map]; simp [doLoadFromMap, mapAssign, JSONSchema.fresh]
        rw [hd] at hn
        simp only [nodes_some, JSONSchema.nodes.nodesOfMap, nodes_none, List.append_nil,
          List.mem_cons, List.mem_singleton, List.not_mem_nil, or_false] at hn
        rcases hn with h | h
        · exact Or.inl ⟨_, List.mem_singleton.mpr rfl, by rw [h, hd]⟩
        · exact Or.inr ⟨key, elem, List.mem_singleton.mpr rfl, h⟩
      | struct fields => exact absurd rfl (hns fields)
      | slice elem =>
        exfalso; apply hp
        rw [doLoad_slice]
        simp only [doLoadFromSlice, JSONSchema.fresh]
        split <;> rfl
      | basic k =>
        exfalso; apply hp
        rw [doLoad_other _ _ _ (basic_kind k).1 (basic_kind k).2.1 (basic_kind k).2.2]
        rfl
      | _ => exact absurd rfl hp
  | hstruct fields ih =>
    intro n hn
    have hd := doLoad_struct JSONSchema.fresh fields ""
    rw [doLoadFromStruct_eq] at hd
    rw [hd, nodes_some] at hn
    rcases List.mem_cons.mp hn with h | h
    · exact Or.inl ⟨_, self_mem_walked _, by rw [h, hd]⟩
    · obtain ⟨e, he, hne⟩ := (mem_nodesOfMap _ n).1 h
      rcases mem_assignFields fields [] e he with h0 | ⟨f, hf, hef⟩
      · cases h0
      · rw [hef] at hne
        have hsub : ∀ x ∈ f.Type_.walked, x ∈ (GoType.struct fields).walked := by
          intro x hx
          rw [GoType.walked]
          exact List.mem_cons_of_mem _ (mem_walkedFields fields f hf x hx)
        rcases ih f hf n hne with ⟨t2, ht2, hn2⟩ | ⟨key, elem, hm, hn2⟩
        · exact Or.inl ⟨t2, hsub t2 ht2, hn2⟩
        · exact Or.inr ⟨key, elem, hsub _ hm, hn2⟩

/-- C10, amended: for every input type, every node of the tree `Load`
produces on a fresh schema is of one of two sorts.  Either it is the schema
`Load` produces for the type at its position (the root, or a child under a
record's `Properties`), and then `Items` is set exactly when `Type` is
"array".  Or it is the child under the ".*" key of a map, and then `Items` is
not set, while `Type` is "array" exactly when the map's value kind is Slice.
In both cases `Items` is set only if `Type` is "array". -/
theorem Load_items_only_on_arrays (t : GoType) :
    ∃ s, Load JSONSchema.fresh (Variable.pointerTo t) = some s ∧
      (s.Items.isSome = true ↔ s.Type_ = "array") ∧
      (∀ n ∈ s.nodes, n.Items.isSome = true → n.Type_ = "array") ∧
      (∀ n ∈ s.nodes,
        ((∃ t2 ∈ t.walked, Load JSONSchema.fresh (Variable.pointerTo t2) = some n) ∧
          (n.Items.isSome = true ↔ n.Type_ = "array")) ∨
        (∃ key elem, GoType.map key elem ∈ t.walked ∧
          n = ⟨getTypeFromMapping elem.Kind, none, none, none⟩ ∧
          n.Items = none ∧ (n.Type_ = "array" ↔ elem.Kind = Kind.Slice))) := by
  have hcls : ∀ n ∈ (doLoad JSONSchema.fresh t "").nodes,
      ((∃ t2 ∈ t.walked, Load JSONSchema.fresh (Variable.pointerTo t2) = some n) ∧
        (n.Items.isSome = true ↔ n.Type_ = "array")) ∨
      (∃ key elem, GoType.map key elem ∈ t.walked ∧
        n = ⟨getTypeFromMapping elem.Kind, none, none, none⟩ ∧
        n.Items = none ∧ (n.Type_ = "array" ↔ elem.Kind = Kind.Slice)) := by
    intro n hn
    rcases doLoad_nodes_classified t n hn with ⟨t2, ht2, hn2⟩ | ⟨key, elem, hm, hn2⟩
    · left
      refine ⟨⟨t2, ht2, by rw [Load_pointerTo, hn2]⟩, ?_⟩
      rw [hn2]
      exact doLoad_root_items t2 ""
    · right
      refine ⟨key, elem, hm, hn2, by rw [hn2], ?_⟩
      rw [hn2]
      exact getTypeFromMapping_array _
  refine ⟨_, Load_pointerTo _ _, doLoad_root_items t "", ?_, hcls⟩
  intro n hn hi
  rcases hcls n hn with ⟨_, h⟩ | ⟨_, _, _, _, h, _⟩
  · exact h.1 hi
  · rw [h] at hi; simp at hi

theorem getTypeFromMapping_object (k : Kind) :
    getTypeFromMapping k = "object" ↔ (k = Kind.Map ∨ k = Kind.Struct) := by
  cases k <;> decide

/-- The three shapes of what `doLoad` leaves in a fresh schema: a node
without `Properties` and `Required` whose `Type` is not "object", the node of
a map, or the node of a record. -/
theorem doLoad_shape (t : GoType) (o : tagOptions) :
    ((doLoad JSONSchema.fresh t o).Properties = none ∧
      (doLoad JSONSchema.fresh t o).Required = none ∧
      (doLoad JSONSchema.fresh t o).Type_ ≠ "object") ∨
    ((doLoad JSONSchema.fresh t o).Type_ = "object" ∧
      (doLoad JSONSchema.fresh t o).Required = none ∧
      ∃ key elem, t = .map key elem ∧ (doLoad JSONSchema.fresh t o).Properties =
        some [(".*", ⟨getTypeFromMapping elem.Kind, none, none, none⟩)]) ∨
    ((doLoad JSONSchema.fresh t o).Type_ = "object" ∧
      ∃ fields, t = .struct fields ∧
        (doLoad JSONSchema.fresh t o).Properties = some (assignFields [] fields) ∧
        (doLoad JSONSchema.fresh t o).Required =
          (if requiredNames fields = [] then none else some (requiredNames fields))) := by
  cases t with
  | slice elem =>
    left
    rw [doLoad_slice]
    by_cases h : elem.Kind = Kind.Uint8 <;> simp [doLoadFromSlice, h, JSONSchema.fresh]
  | map key elem =>
    right; left
    rw [doLoad_map]
    exact ⟨rfl, rfl, key, elem, rfl, rfl⟩
  | struct fields =>
    right; right
    rw [doLoad_struct, doLoadFromStruct_eq]
    exact ⟨rfl, fields, rfl, rfl, appendAll_none _⟩
  | basic k =>
    left
    rw [doLoad_other _ _ _ (basic_kind k).1 (basic_kind k).2.1 (basic_kind k).2.2]
    refine ⟨rfl, rfl, ?_⟩
    show getTypeFromMapping _ ≠ "object"
    rw [Ne, getTypeFromMapping_object]
    cases k <;> decide
  | _ =>
    left
    rw [doLoad_other _ _ _ (by simp [GoType.Kind]) (by simp [GoType.Kind])
      (by simp [GoType.Kind])]
    refine ⟨rfl, rfl, ?_⟩
    simp only [GoType.Kind, JSONSchema.fresh]
    decide

/-- At the root of what `doLoad` leaves in a fresh schema, `Properties` is
set exactly when `Type` is "object", and `Required` is set only then. -/
theorem doLoad_root_properties (t : GoType) (o : tagOptions) :
    ((doLoad JSONSchema.fresh t o).Properties.isSome = true ↔
      (doLoad JSONSchema.fresh t o).Type_ = "object") ∧
    ((doLoad JSONSchema.fresh t o).Required ≠ none →
      (doLoad JSONSchema.fresh t o).Type_ = "object") := by
  rcases doLoad_shape t o with ⟨h1, h2, h3⟩ | ⟨h1, h2, _, _, _, h3⟩ | ⟨h1, _, _, h3, _⟩
  · simp [h1, h2, h3]
  · simp [h1, h3]
  · simp [h1, h3]

/-- C11 fails as stated: for a map whose values are maps of int, the child
under ".*" has `Type` "object" and no `Properties`. -/
theorem Properties_iff_object_counterexample :
    Load JSONSchema.fresh (Variable.pointerTo
        (.map (.basic .String) (.map (.basic .String) (.basic .Int)))) =
      some ⟨"object", none, some [(".*", ⟨"object", none, none, none⟩)], none⟩ ∧
    (⟨"object", none, none, none⟩ : JSONSchema) ∈
      (JSONSchema.nodes ⟨"object", none, some [(".*", ⟨"object", none, none, none⟩)], none⟩) :=
  ⟨rfl, by simp [nodes_some, nodes_none, JSONSchema.nodes.nodesOfMap]⟩

/-- C11, amended: for every input type, every node of the tree `Load`
produces on a fresh schema has `Properties` set only if its `Type` is
"object", and `Required` set (so also non-empty) only if its `Type` is
"object".  At a node that is the schema `Load` produces for the type at its
position (the root, or a child under a record's `Properties`), `Properties`
is set exactly when `Type` is "object".  The child under the ".*" key of a
map has neither `Properties` nor `Required`, while its `Type` is "object"
exactly when the map's value kind is Map or Struct. -/
theorem Load_properties_only_on_objects (t : GoType) :
    ∃ s, Load JSONSchema.fresh (Variable.pointerTo t) = some s ∧
      (s.Properties.isSome = true ↔ s.Type_ = "object") ∧
      (∀ n ∈ s.nodes, n.Properties.isSome = true → n.Type_ = "object") ∧
      (∀ n ∈ s.nodes, n.Required.getD [] ≠ [] → n.Type_ = "object") ∧
      (∀ n ∈ s.nodes, n.Required ≠ none → n.Type_ = "object") ∧
      (∀ n ∈ s.nodes,
        ((∃ t2 ∈ t.walked, Load JSONSchema.fresh (Variable.pointerTo t2) = some n) ∧
          (n.Properties.isSome = true ↔ n.Type_ = "object")) ∨
        (∃ key elem, GoType.map key elem ∈ t.walked ∧
          n = ⟨getTypeFromMapping elem.Kind, none, none, none⟩ ∧
          n.Properties = none ∧ n.Required = none ∧
          (n.Type_ = "object" ↔ (elem.Kind = Kind.Map ∨ elem.Kind = Kind.Struct)))) := by
  have hcls : ∀ n ∈ (doLoad JSONSchema.fresh t "").nodes,
      ((∃ t2 ∈ t.walked, Load JSONSchema.fresh (Variable.pointerTo t2) = some n) ∧
        (n.Properties.isSome = true ↔ n.Type_ = "object") ∧
        (n.Required ≠ none → n.Type_ = "object")) ∨
      (∃ key elem, GoType.map key elem ∈ t.walked ∧
        n = ⟨getTypeFromMapping elem.Kind, none, none, none⟩ ∧
        n.Properties = none ∧ n.Required = none ∧
        (n.Type_ = "object" ↔ (elem.Kind = Kind.Map ∨ elem.Kind = Kind.Struct))) := by
    intro n hn
    rcases doLoad_nodes_classified t n hn with ⟨t2, ht2, hn2⟩ | ⟨key, elem, hm, hn2⟩
    · left
      refine ⟨⟨t2, ht2, by rw [Load_pointerTo, hn2]⟩, ?_⟩
      rw [hn2]
      exact doLoad_root_properties t2 ""
    · right
      refine ⟨key, elem, hm, hn2, by rw [hn2], by rw [hn2], ?_⟩
      rw [hn2]
      exact getTypeFromMapping_object _
  refine ⟨_, Load_pointerTo _ _, (doLoad_root_properties t "").1, ?_, ?_, ?_, ?_⟩
  · intro n hn hi
    rcases hcls n hn with ⟨_, h, _⟩ | ⟨_, _, _, _, h, _⟩
    · exact h.1 hi
    · rw [h] at hi; simp at hi
  pick_goal 2
  · intro n hn hr
    rcases hcls n hn with ⟨_, _, h⟩ | ⟨_, _, _, _, _, h, _⟩
    · exact h hr
    · exact absurd h hr
  · intro n hn hr
    rcases hcls n hn with ⟨_, _, h⟩ | ⟨_, _, _, _, _, h, _⟩
    · apply h
      intro hnone
      rw [hnone] at hr
      exact hr rfl
    · rw [h] at hr
      exact absurd rfl hr
  · intro n hn
    rcases hcls n hn with ⟨h1, h2, _⟩ | h
    · exact Or.inl ⟨h1, h2⟩
    · exact Or.inr h

theorem not_mem_takeWhile_comma (l : List Char) :
    ',' ∉ l.takeWhile (fun c => c != ',') := by
  intro h
  have := List.mem_takeWhile_imp h
  simp at this

theorem dropWhile_comma_of_mem (l : List Char) (h : ',' ∈ l) :
    l.dropWhile (fun c => c != ',') =
      ',' :: (l.dropWhile (fun c => c != ',')).drop 1 := by
  induction l with
  | nil => cases h
  | cons c cs ih =>
    by_cases hc : c = ','
    · subst hc
      simp [List.dropWhile_cons]
    · have h2 : ',' ∈ cs := by
        rcases List.mem_cons.mp h with h | h
        · exact absurd h.symm hc
        · exact h
      simp only [List.dropWhile_cons, bne_iff_ne, ne_eq, hc, not_false_eq_true, if_true]
      exact ih h2

theorem takeWhile_append_comma (n o : List Char) (h : ',' ∉ n) :
    (n ++ ',' :: o).takeWhile (fun c => c != ',') = n ∧
    (n ++ ',' :: o).dropWhile (fun c => c != ',') = ',' :: o := by
  induction n with
  | nil => simp [List.takeWhile_cons, List.dropWhile_cons]
  | cons c cs ih =>
    simp only [List.mem_cons, not_or] at h
    have hc : c ≠ ',' := fun e => h.1 e.symm
    have := ih h.2
    simp [List.takeWhile_cons, List.dropWhile_cons, hc, this.1, this.2]

/-- Cutting a tag at its first comma and joining the parts with a comma
gives the tag back. -/
theorem tagName_comma_tagRest (tag : String) (h : ',' ∈ tag.data) :
    tagName tag ++ "," ++ tagRest tag = tag := by
  apply String.ext
  simp only [String.data_append, tagName, tagRest, comma_data, List.append_assoc,
    List.singleton_append]
  rw [← dropWhile_comma_of_mem _ h, List.takeWhile_append_dropWhile]

/-- C12: `parseTag` splits at the first comma.  A tag without a comma gives
`(tag, "")`.  A tag with a comma gives a name without comma and options such
that name, comma and options put together are the tag again; so whenever the
tag is a comma-free name, a comma and any options, these two are the
result. -/
theorem parseTag_split (tag : String) :
    (',' ∉ tag.data → parseTag tag = (tag, "")) ∧
    (',' ∈ tag.data →
      ',' ∉ (parseTag tag).1.data ∧
      (parseTag tag).1 ++ "," ++ (parseTag tag).2 = tag) ∧
    (∀ name options : String, ',' ∉ name.data →
      parseTag (name ++ "," ++ options) = (name, options)) ∧
    parseTag "b,omitempty" = ("b", "omitempty") ∧
    parseTag ",a,b" = ("", "a,b") ∧
    parseTag "A" = ("A", "") := by
  refine ⟨?_, ?_, ?_, by decide, by decide, by decide⟩
  · intro h
    rw [parseTag_eq]
    have e1 : tagName tag = tag :=
      String.ext (by simp [tagName, takeWhile_of_no_comma _ h])
    have e2 : tagRest tag = "" :=
      String.ext (by simp [tagRest, dropWhile_of_no_comma _ h])
    rw [e1, e2]
  · intro h
    rw [parseTag_eq]
    exact ⟨not_mem_takeWhile_comma _, tagName_comma_tagRest tag h⟩
  · intro name options h
    rw [parseTag_eq]
    have hd : (name ++ "," ++ options).data = name.data ++ ',' :: options.data := by
      simp [String.data_append, comma_data]
    have := takeWhile_append_comma name.data options.data h
    have e1 : tagName (name ++ "," ++ options) = name :=
      String.ext (by simp only [tagName, hd, this.1])
    have e2 : tagRest (name ++ "," ++ options) = options :=
      String.ext (by simp only [tagRest, hd, this.2, List.drop_succ_cons, List.drop_zero])
    rw [e1, e2]

theorem splitCommas_no_comma (l : List Char) : ∀ t ∈ splitCommas l, ',' ∉ t := by
  induction l with
  | nil => simp [splitCommas]
  | cons c cs ih =>
    by_cases hc : c = ','
    · subst hc
      intro t ht
      simp only [splitCommas, if_true, List.mem_cons] at ht
      rcases ht with h | h
      · rw [h]; simp
      · exact ih t h
    · intro t ht
      have hc2 : ¬ (',' = c) := fun e => hc e.symm
      rw [splitCommas] at ht
      simp only [hc, if_false] at ht
      cases hs : splitCommas cs with
      | nil => exact absurd hs (splitCommas_ne_nil cs)
      | cons t0 ts =>
        rw [hs] at ht ih
        simp only [List.mem_cons] at ht
        rcases ht with h | h
        · rw [h]
          have := ih t0 (List.mem_cons_self _ _)
          simp [hc2, this]
        · exact ih t (List.mem_cons_of_mem _ h)

theorem intercalate_splitCommas (l : List Char) :
    [','].intercalate (splitCommas l) = l := by
  induction l with
  | nil => simp [splitCommas, List.intercalate]
  | cons c cs ih =>
    cases hs : splitCommas cs with
    | nil => exact absurd hs (splitCommas_ne_nil cs)
    | cons t0 ts =>
      rw [hs] at ih
      by_cases hc : c = ','
      · subst hc
        rw [splitCommas]
        simp only [if_true, hs]
        simp only [List.intercalate, List.intersperse] at ih ⊢
        simp [ih]
      · rw [splitCommas]
        simp only [hc, if_false, hs]
        cases ts with
        | nil =>
          simp only [List.intercalate, List.intersperse] at ih ⊢
          simpa using ih
        | cons t1 ts2 =>
          simp only [List.intercalate, List.intersperse] at ih ⊢
          simpa using ih

/-- C13: `tagOptions.Contains` is the membership test on the comma-separated
tokens: for every options string and every non-empty name, it answers true
exactly when the name is equal to one of the tokens got by splitting the
options at every comma (no token holds a comma, and the tokens joined by
commas are the options).  A token that only starts with, ends with or
holds the name does not match. -/
theorem Contains_iff_token (o n : String) (hn : n ≠ "") :
    (tagOptions.Contains o n = true ↔ n ∈ tokens o) ∧
    (∀ t ∈ tokens o, ',' ∉ t.data) ∧
    [','].intercalate ((tokens o).map String.data) = o.data ∧
    tagOptions.Contains "omitemptyx,xomitempty,an omitempty b" "omitempty" = false ∧
    tagOptions.Contains "string,omitempty" "omitempty" = true := by
  refine ⟨?_, ?_, ?_, by decide, by decide⟩
  · rw [Contains_eq o n hn]
    simp
  · intro t ht
    simp only [tokens, List.mem_map] at ht
    obtain ⟨l, hl, rfl⟩ := ht
    exact splitCommas_no_comma _ l hl
  · have : (tokens o).map String.data = splitCommas o.data := by
      simp [tokens, Function.comp_def]
    rw [this, intercalate_splitCommas]

/-- Witness for C13: the options `b,,omitempty` hold the token `omitempty`. -/
theorem Contains_iff_token_witness :
    ("omitempty" : String) ≠ "" ∧
    ((tagOptions.Contains "b,,omitempty" "omitempty" = true ↔
        "omitempty" ∈ tokens "b,,omitempty") ∧
      (∀ t ∈ tokens "b,,omitempty", ',' ∉ t.data) ∧
      [','].intercalate ((tokens "b,,omitempty").map String.data) =
        ("b,,omitempty" : String).data ∧
      tagOptions.Contains "omitemptyx,xomitempty,an omitempty b" "omitempty" = false ∧
      tagOptions.Contains "string,omitempty" "omitempty" = true) :=
  ⟨by decide, Contains_iff_token _ _ (by decide)⟩

/-- C17: for every input type, at every node of the tree `Load` produces on
a fresh schema, every name in `Required` is a key of the node's
`Properties`. -/
theorem Load_required_are_properties (t : GoType) :
    ∃ s, Load JSONSchema.fresh (Variable.pointerTo t) = some s ∧
      ∀ n ∈ s.nodes, ∀ name ∈ n.Required.getD [],
        ∃ m, n.Properties = some m ∧ name ∈ mapKeys m := by
  refine ⟨_, Load_pointerTo _ _, ?_⟩
  intro n hn name hname
  rcases doLoad_nodes_classified t n hn with ⟨t2, _, hn2⟩ | ⟨key, elem, _, hn2⟩
  · rw [hn2] at hname ⊢
    rcases doLoad_shape t2 "" with ⟨_, h2, _⟩ | ⟨_, h2, _⟩ | ⟨_, fields, _, hp, hr⟩
    · rw [h2] at hname; cases hname
    · rw [h2] at hname; cases hname
    · refine ⟨_, hp, ?_⟩
      rw [hr] at hname
      have hmem : name ∈ requiredNames fields := by
        by_cases he : requiredNames fields = []
        · rw [he] at hname; simp at hname
        · simpa [he] using hname
      rw [mem_mapKeys_assignFields]
      right
      simp only [requiredNames, List.mem_map, List.mem_filter] at hmem
      obtain ⟨f, ⟨hf, _⟩, hfn⟩ := hmem
      exact List.mem_map.mpr ⟨f, hf, hfn⟩
  · rw [hn2] at hname
    cases hname

theorem length_assignFields (fields : List StructField) :
    (assignFields [] fields).length = (fields.map StructField.resolvedName).dedup.length := by
  have h1 : (mapKeys (assignFields [] fields)).Nodup :=
    nodup_mapKeys_assignFields fields [] (by simp [mapKeys])
  have h2 : (mapKeys (assignFields [] fields)).Perm
      (fields.map StructField.resolvedName).dedup := by
    rw [List.perm_ext_iff_of_nodup h1 (List.nodup_dedup _)]
    intro a
    rw [mem_mapKeys_assignFields, List.mem_dedup]
    simp [mapKeys]
  have h3 := h2.length_eq
  simpa [mapKeys] using h3

/-- C18: when several fields of a record resolve to one name, `Properties`
holds one entry for that name and its child is the schema of the
last-declared of those fields.  The number of entries of `Properties` is the
number of distinct resolved names, which is at most, and can be less than,
the number of fields; `Required` has one entry per field not marked
`omitempty`.  For the record with fields `A string` and `B int` tagged `A`
the single entry "A" holds the schema of `int` and `Required` lists "A"
twice. -/
theorem Load_struct_name_collision (pre post : List StructField) (f : StructField)
    (hlast : ∀ g ∈ post, g.resolvedName ≠ f.resolvedName) :
    (∃ s m child,
      Load JSONSchema.fresh (Variable.pointerTo (.struct (pre ++ f :: post))) = some s ∧
      s.Properties = some m ∧
      (mapKeys m).count f.resolvedName = 1 ∧
      mapIndex m f.resolvedName = some child ∧
      Load JSONSchema.fresh (Variable.pointerTo f.Type_) = some child ∧
      m.length = ((pre ++ f :: post).map StructField.resolvedName).dedup.length ∧
      m.length ≤ (pre ++ f :: post).length ∧
      (s.Required.getD []).length =
        ((pre ++ f :: post).filter (fun g => !g.omitempty)).length) ∧
    Load JSONSchema.fresh (Variable.pointerTo (.struct
        [.mk "A" [] (.basic .String), .mk "B" [("json", "A")] (.basic .Int)])) =
      some ⟨"object", none, some [("A", ⟨"integer", none, none, none⟩)],
        some ["A", "A"]⟩ := by
  refine ⟨⟨_, assignFields [] (pre ++ f :: post), doLoad JSONSchema.fresh f.Type_ "",
    Load_pointerTo _ _, ?_, ?_, ?_, Load_pointerTo _ _, ?_, ?_, ?_⟩, rfl⟩
  · rw [doLoad_struct, doLoadFromStruct_eq]
  · apply List.count_eq_one_of_mem
    · exact nodup_mapKeys_assignFields _ [] (by simp [mapKeys])
    · rw [mem_mapKeys_assignFields]
      right
      simp
  · rw [assignFields_append, assignFields_cons,
      mapIndex_assignFields_other post _ hlast, mapIndex_mapAssign]
    simp
  · exact length_assignFields _
  · rw [length_assignFields]
    calc ((pre ++ f :: post).map StructField.resolvedName).dedup.length
        ≤ ((pre ++ f :: post).map StructField.resolvedName).length :=
          (List.dedup_sublist _).length_le
      _ = (pre ++ f :: post).length := List.length_map _ _
  · rw [doLoad_struct, doLoadFromStruct_eq]
    show ((appendAll none _).getD []).length = _
    rw [appendAll_none]
    split
    · rename_i h
      have := congrArg List.length h
      simpa [requiredNames] using this.symm
    · simp [requiredNames]

/-- Witness for C18: three fields, the first two resolving to "x". -/
theorem Load_struct_name_collision_witness :
    (∀ g ∈ [StructField.mk "B" [] (.basic .Int)],
      g.resolvedName ≠ (StructField.mk "C" [("json", "x,omitempty")] (.basic .Bool)).resolvedName) ∧
    ((∃ s m child,
      Load JSONSchema.fresh (Variable.pointerTo (.struct
        ([StructField.mk "A" [("json", "x")] (.basic .String)] ++ (StructField.mk "C" [("json", "x,omitempty")] (.basic .Bool)) :: [StructField.mk "B" [] (.basic .Int)]))) = some s ∧
      s.Properties = some m ∧
      (mapKeys m).count (StructField.mk "C" [("json", "x,omitempty")] (.basic .Bool)).resolvedName = 1 ∧
      mapIndex m (StructField.mk "C" [("json", "x,omitempty")] (.basic .Bool)).resolvedName = some child ∧
      Load JSONSchema.fresh (Variable.pointerTo (StructField.mk "C" [("json", "x,omitempty")] (.basic .Bool)).Type_) = some child ∧
      m.length = (([StructField.mk "A" [("json", "x")] (.basic .String)] ++ (StructField.mk "C" [("json", "x,omitempty")] (.basic .Bool)) :: [StructField.mk "B" [] (.basic .Int)]).map StructField.resolvedName).dedup.length ∧
      m.length ≤ ([StructField.mk "A" [("json", "x")] (.basic .String)] ++ (StructField.mk "C" [("json", "x,omitempty")] (.basic .Bool)) :: [StructField.mk "B" [] (.basic .Int)]).length ∧
      (s.Required.getD []).length =
        (([StructField.mk "A" [("json", "x")] (.basic .String)] ++ (StructField.mk "C" [("json", "x,omitempty")] (.basic .Bool)) :: [StructField.mk "B" [] (.basic .Int)]).filter (fun g => !g.omitempty)).length) ∧
    Load JSONSchema.fresh (Variable.pointerTo (.struct
        [.mk "A" [] (.basic .String), .mk "B" [("json", "A")] (.basic .Int)])) =
      some ⟨"object", none, some [("A", ⟨"integer", none, none, none⟩)],
        some ["A", "A"]⟩) :=
  ⟨by decide, Load_struct_name_collision _ _ _ (by decide)⟩

theorem getD_appendAll (r : Option (List String)) (xs : List String) :
    (appendAll r xs).getD [] = r.getD [] ++ xs := by
  cases r with
  | none =>
    rw [appendAll_none]
    by_cases h : xs = []
    · simp [h]
    · simp [h]
  | some l => rw [appendAll_some]; rfl

/-- C19: `Load` does not reset its receiver.  For a record input, `Required`
afterwards is the receiver's `Required` followed by the record's required
names and `Items` is as before (`Type` and `Properties` are those of a load
into a fresh schema), so that loading one record twice into a schema lists
every required name twice.  For an input whose kind is none of slice, map
and struct only `Type` is overwritten. -/
theorem Load_keeps_receiver (j : JSONSchema) :
    (∀ fields : List StructField,
      ∃ s, Load j (Variable.pointerTo (.struct fields)) = some s ∧
        s.Required.getD [] = j.Required.getD [] ++ requiredNames fields ∧
        (∀ r, j.Required = some r → s.Required = some (r ++ requiredNames fields)) ∧
        s.Items = j.Items ∧
        s.Type_ = "object" ∧
        s.Properties = some (assignFields [] fields)) ∧
    (∀ fields : List StructField,
      ∃ s1 s2, Load JSONSchema.fresh (Variable.pointerTo (.struct fields)) = some s1 ∧
        Load s1 (Variable.pointerTo (.struct fields)) = some s2 ∧
        s2.Required.getD [] = requiredNames fields ++ requiredNames fields) ∧
    (∀ t : GoType, t.Kind ≠ Kind.Slice → t.Kind ≠ Kind.Map → t.Kind ≠ Kind.Struct →
      Load j (Variable.pointerTo t) =
        some ⟨getTypeFromMapping t.Kind, j.Items, j.Properties, j.Required⟩) ∧
    Load ⟨"array", some ⟨"integer"⟩, some [("k", JSONSchema.fresh)], some ["k"]⟩
        (Variable.pointerTo (.struct
          [.mk "A" [] (.basic .String), .mk "B" [("json", "b,omitempty")] (.basic .Int)])) =
      some ⟨"object", some ⟨"integer"⟩,
        some [("A", ⟨"string", none, none, none⟩), ("b", ⟨"integer", none, none, none⟩)],
        some ["k", "A"]⟩ ∧
    Load ⟨"array", some ⟨"integer"⟩, some [("k", JSONSchema.fresh)], some ["k"]⟩
        (Variable.pointerTo (.ptr (.basic .Int))) =
      some ⟨"", some ⟨"integer"⟩, some [("k", JSONSchema.fresh)], some ["k"]⟩ := by
  refine ⟨?_, ?_, ?_, rfl, rfl⟩
  · intro fields
    refine ⟨_, Load_pointerTo _ _, ?_, ?_, ?_, ?_, ?_⟩
    · rw [doLoad_struct, doLoadFromStruct_eq]
      exact getD_appendAll _ _
    · intro r hr
      rw [doLoad_struct, doLoadFromStruct_eq]
      show appendAll j.Required _ = _
      rw [hr, appendAll_some]
    · rw [doLoad_struct, doLoadFromStruct_eq]
    · rw [doLoad_struct, doLoadFromStruct_eq]
    · rw [doLoad_struct, doLoadFromStruct_eq]
  · intro fields
    refine ⟨_, _, Load_pointerTo _ _, Load_pointerTo _ _, ?_⟩
    rw [doLoad_struct, doLoadFromStruct_eq, doLoad_struct, doLoadFromStruct_eq]
    show (appendAll (appendAll none _) _).getD [] = _
    rw [getD_appendAll, getD_appendAll]
    rfl
  · intro t h1 h2 h3
    rw [Load_pointerTo, doLoad_other _ _ _ h1 h2 h3]

theorem keys_encodeField_omitempty (key : String) (e : Bool) (val : Json) :
    (encodeField key true e val).map Prod.fst = if e = true then [] else [key] := by
  cases e <;> rfl

theorem keys_encodeField_always (key : String) (e : Bool) (val : Json) :
    (encodeField key false e val).map Prod.fst = [key] := by
  cases e <;> rfl

/-- The keys `Marshal` writes for a node: always `type`, then `items`,
`properties` and `required` for the attributes that are not empty. -/
theorem Marshal_keys_eq (s : JSONSchema) :
    (Marshal s).keys =
      ["type"] ++ (if s.Items = none then [] else ["items"]) ++
        (if (s.Properties.getD []).isEmpty then [] else ["properties"]) ++
        (if (s.Required.getD []).isEmpty then [] else ["required"]) := by
  obtain ⟨t, i, p, r⟩ := s
  rw [Marshal.eq_def]
  cases i <;> cases p <;> cases r <;>
    simp [Json.keys, keys_encodeField_omitempty, keys_encodeField_always]

/-- C15 fails as stated: the schema `Load` produces for a pointer to a
pointer has the empty string as `Type`, and its serialized form has the key
`type`, with the empty string as value. -/
theorem Marshal_empty_type_counterexample :
    (Load JSONSchema.fresh (Variable.pointerTo (.ptr (.basic .Int)))).map Marshal =
      some (.obj [("type", .str "")]) ∧
    (Load JSONSchema.fresh (Variable.pointerTo (.ptr (.basic .Int)))).map
      (fun s => decide (s.Type_ = "" ∧ "type" ∈ (Marshal s).keys)) = some true :=
  ⟨rfl, by decide⟩

/-- C15, amended: in the serialized form of a schema node the key `type` is
always present, also when `Type` is the empty string; the keys `items`,
`properties` and `required` are present exactly when `Items` is not nil,
`Properties` is not empty and `Required` is not empty; there is no other
key.  Inside `items` the key `type` is present exactly when `Items.Type` is
not empty. -/
theorem Marshal_keys (s : JSONSchema) :
    "type" ∈ (Marshal s).keys ∧
    ("items" ∈ (Marshal s).keys ↔ s.Items ≠ none) ∧
    ("properties" ∈ (Marshal s).keys ↔ s.Properties.getD [] ≠ []) ∧
    ("required" ∈ (Marshal s).keys ↔ s.Required.getD [] ≠ []) ∧
    (∀ k ∈ (Marshal s).keys, k ∈ ["type", "items", "properties", "required"]) ∧
    (∀ i : JSONSchemaItems, (marshalItems i).keys = if i.Type_ = "" then [] else ["type"]) ∧
    Marshal ⟨"", none, none, none⟩ = .obj [("type", .str "")] := by
  rw [Marshal_keys_eq]
  refine ⟨by simp, ?_, ?_, ?_, ?_, ?_, rfl⟩
  · by_cases h1 : s.Items = none <;> by_cases h2 : s.Properties.getD [] = [] <;>
      by_cases h3 : s.Required.getD [] = [] <;> simp [h1, h2, h3, List.isEmpty_iff]
  · by_cases h1 : s.Items = none <;> by_cases h2 : s.Properties.getD [] = [] <;>
      by_cases h3 : s.Required.getD [] = [] <;> simp [h1, h2, h3, List.isEmpty_iff]
  · by_cases h1 : s.Items = none <;> by_cases h2 : s.Properties.getD [] = [] <;>
      by_cases h3 : s.Required.getD [] = [] <;> simp [h1, h2, h3, List.isEmpty_iff]
  · by_cases h1 : s.Items = none <;> by_cases h2 : s.Properties.getD [] = [] <;>
      by_cases h3 : s.Required.getD [] = [] <;> simp [h1, h2, h3, List.isEmpty_iff]
  · intro i
    by_cases h : i.Type_ = "" <;> simp [marshalItems, encodeField, Json.keys, h]

theorem GoValue.Kind_eq (v : GoValue) : v.Kind = v.typeOf.Kind := by
  cases v <;> rfl

mutual
/-- The walk over a value is the walk over its type: `doLoad` reads nothing
of a value but its type. -/
theorem doLoadValue_eq : ∀ (v : GoValue) (j : JSONSchema) (o : tagOptions),
    doLoadValue j v o = doLoad j v.typeOf o
  | .struct fields, j, o => by
    rw [doLoadValue, GoValue.typeOf, doLoad]
    exact doLoadFieldValues_eq fields _
  | .slice elem items, j, o => by rw [doLoadValue, GoValue.typeOf, doLoad]; rfl
  | .map key elem entries, j, o => by rw [doLoadValue, GoValue.typeOf, doLoad]; rfl
  | .basic k bytes, j, o => by
    simp [doLoadValue, GoValue.typeOf, doLoad, GoValue.Kind, GoType.Kind]
  | .array elem items, j, o => by
    simp [doLoadValue, GoValue.typeOf, doLoad, GoValue.Kind, GoType.Kind]
  | .chan elem isNil, j, o => by
    simp [doLoadValue, GoValue.typeOf, doLoad, GoValue.Kind, GoType.Kind]
  | .func isNil, j, o => by
    simp [doLoadValue, GoValue.typeOf, doLoad, GoValue.Kind, GoType.Kind]
  | .interface dyn, j, o => by
    simp [doLoadValue, GoValue.typeOf, doLoad, GoValue.Kind, GoType.Kind]
  | .nilPtr elem, j, o => by
    simp [doLoadValue, GoValue.typeOf, doLoad, GoValue.Kind, GoType.Kind]
  | .ptrTo target, j, o => by
    simp [doLoadValue, GoValue.typeOf, doLoad, GoValue.Kind, GoType.Kind]
/-- The loop over the fields of a struct value is the loop over the fields
of its type. -/
theorem doLoadFieldValues_eq : ∀ (fields : List FieldValue) (j : JSONSchema),
    doLoadFieldValues j fields = doLoadFields j (typeOfFields fields)
  | [], j => by rw [doLoadFieldValues, typeOfFields, doLoadFields]
  | .mk n tag v :: rest, j => by
    rw [doLoadFieldValues, typeOfFields, doLoadFields]
    simp only [doLoadValue_eq v]
    exact doLoadFieldValues_eq rest _
end

/-- `Load` on a value is `Load` on the description of its argument: the
type of the value and whether it is a nil pointer. -/
theorem LoadValue_eq_Load (j : JSONSchema) (x : GoValue) :
    LoadValue j (some x) = Load j ⟨some x.typeOf, x.isNilPtr⟩ := by
  cases x with
  | nilPtr elem => rfl
  | ptrTo target =>
    simp only [LoadValue, Load, GoValue.typeOf, GoValue.isNilPtr, doLoadValue_eq]
    rfl
  | _ => simp [LoadValue, Load, GoValue.typeOf]

/-- C14: `Load` is deterministic and depends only on the type of the value
it is given: for two values of one type, each passed by a pointer to it,
whatever their contents (nil or populated slices and maps, zero or other
field values), `Load` on two fresh schemas gives equal schema trees, namely
the tree of the walk over the type. -/
theorem LoadValue_depends_on_type (x y : GoValue) (ht : x.typeOf = y.typeOf) :
    LoadValue JSONSchema.fresh (some (.ptrTo x)) =
      LoadValue JSONSchema.fresh (some (.ptrTo y)) ∧
    LoadValue JSONSchema.fresh (some (.ptrTo x)) =
      Load JSONSchema.fresh (Variable.pointerTo x.typeOf) ∧
    ∃ s, LoadValue JSONSchema.fresh (some (.ptrTo x)) = some s := by
  have e : ∀ v : GoValue, LoadValue JSONSchema.fresh (some (.ptrTo v)) =
      Load JSONSchema.fresh (Variable.pointerTo v.typeOf) := by
    intro v
    rw [LoadValue_eq_Load]
    rfl
  refine ⟨?_, e x, _, (e x).trans (Load_pointerTo _ _)⟩
  rw [e x, e y, ht]

/-- Witness for C14: two records of one type, the first with a nil slice and
a zero, the second with a populated slice and a seven. -/
theorem LoadValue_depends_on_type_witness :
    (GoValue.struct [.mk "A" [] (.slice (.basic .Int) none),
        .mk "B" [("json", "b,omitempty")] (.basic .Int [0])]).typeOf =
      (GoValue.struct [.mk "A" [] (.slice (.basic .Int)
          (some [.basic .Int [1], .basic .Int [2]])),
        .mk "B" [("json", "b,omitempty")] (.basic .Int [7])]).typeOf ∧
    (LoadValue JSONSchema.fresh (some (.ptrTo (GoValue.struct [.mk "A" [] (.slice (.basic .Int) none),
        .mk "B" [("json", "b,omitempty")] (.basic .Int [0])]))) =
      LoadValue JSONSchema.fresh (some (.ptrTo (GoValue.struct [.mk "A" [] (.slice (.basic .Int)
          (some [.basic .Int [1], .basic .Int [2]])),
        .mk "B" [("json", "b,omitempty")] (.basic .Int [7])]))) ∧
    LoadValue JSONSchema.fresh (some (.ptrTo (GoValue.struct [.mk "A" [] (.slice (.basic .Int) none),
        .mk "B" [("json", "b,omitempty")] (.basic .Int [0])]))) =
      Load JSONSchema.fresh (Variable.pointerTo (GoValue.struct [.mk "A" [] (.slice (.basic .Int) none),
        .mk "B" [("json", "b,omitempty")] (.basic .Int [0])]).typeOf) ∧
    ∃ s, LoadValue JSONSchema.fresh (some (.ptrTo (GoValue.struct [.mk "A" [] (.slice (.basic .Int) none),
        .mk "B" [("json", "b,omitempty")] (.basic .Int [0])]))) = some s) :=
  ⟨rfl, LoadValue_depends_on_type _ _ rfl⟩

theorem Kind_ofKind (t : TypeExpr) : (GoType.ofKind t.Kind).Kind = t.Kind := by
  cases t with
  | basic k => cases k <;> rfl
  | _ => rfl

theorem Kind_approx (decls : Decls) (t : TypeExpr) : (t.approx decls).Kind = t.Kind := by
  cases t <;> rfl

mutual
/-- The walk over a type given with declarations ends with the schema of the
walk over the finite tree `approx`. -/
theorem doLoadRef_fst : ∀ (decls : Decls) (t : TypeExpr) (j : JSONSchema) (o : tagOptions),
    (doLoadRef decls j t o).1 = doLoad j (t.approx decls) o
  | decls, .struct fields, j, o => by
    rw [doLoadRef, TypeExpr.approx, doLoad]
    exact doLoadFieldsRef_fst decls fields _
  | decls, .slice elem, j, o => by
    simp only [doLoadRef, TypeExpr.approx, doLoad, doLoadFromSliceRef, doLoadFromSlice,
      Kind_ofKind]
    rfl
  | decls, .map key elem, j, o => by
    simp only [doLoadRef, TypeExpr.approx, doLoad, doLoadFromMapRef, doLoadFromMap,
      Kind_ofKind]
    rfl
  | decls, .basic k, j, o => by
    simp [doLoadRef, TypeExpr.approx, doLoad, TypeExpr.Kind, GoType.Kind]
  | decls, .array len elem, j, o => by
    simp [doLoadRef, TypeExpr.approx, doLoad, TypeExpr.Kind, GoType.Kind]
  | decls, .chan elem, j, o => by
    simp [doLoadRef, TypeExpr.approx, doLoad, TypeExpr.Kind, GoType.Kind]
  | decls, .func, j, o => by
    simp [doLoadRef, TypeExpr.approx, doLoad, TypeExpr.Kind, GoType.Kind]
  | decls, .interface, j, o => by
    simp [doLoadRef, TypeExpr.approx, doLoad, TypeExpr.Kind, GoType.Kind]
  | decls, .ptr elem, j, o => by
    simp [doLoadRef, TypeExpr.approx, doLoad, TypeExpr.Kind, GoType.Kind]
theorem doLoadFieldsRef_fst : ∀ (decls : Decls) (fields : List FieldExpr) (j : JSONSchema),
    (doLoadFieldsRef decls j fields).1 = doLoadFields j (approxFields decls fields)
  | decls, [], j => by rw [doLoadFieldsRef, approxFields, doLoadFields]
  | decls, .mk n tag ft :: rest, j => by
    rw [doLoadFieldsRef, approxFields, doLoadFields]
    simp only [doLoadRef_fst decls ft]
    exact doLoadFieldsRef_fst decls rest _
end

mutual
/-- The number of calls of `doLoad`: one, and one for each field of the
records held by value. -/
theorem doLoadRef_snd : ∀ (decls : Decls) (t : TypeExpr) (j : JSONSchema) (o : tagOptions),
    (doLoadRef decls j t o).2 = 1 + t.fieldCount
  | decls, .struct fields, j, o => by
    rw [doLoadRef, TypeExpr.fieldCount]
    simp only [doLoadFieldsRef_snd decls fields]
  | decls, .slice elem, j, o => by simp [doLoadRef, TypeExpr.fieldCount]
  | decls, .map key elem, j, o => by simp [doLoadRef, TypeExpr.fieldCount]
  | decls, .basic k, j, o => by simp [doLoadRef, TypeExpr.fieldCount]
  | decls, .array len elem, j, o => by simp [doLoadRef, TypeExpr.fieldCount]
  | decls, .chan elem, j, o => by simp [doLoadRef, TypeExpr.fieldCount]
  | decls, .func, j, o => by simp [doLoadRef, TypeExpr.fieldCount]
  | decls, .interface, j, o => by simp [doLoadRef, TypeExpr.fieldCount]
  | decls, .ptr elem, j, o => by simp [doLoadRef, TypeExpr.fieldCount]
theorem doLoadFieldsRef_snd : ∀ (decls : Decls) (fields : List FieldExpr) (j : JSONSchema),
    (doLoadFieldsRef decls j fields).2 = fieldCountOf fields
  | decls, [], j => by rw [doLoadFieldsRef, fieldCountOf]
  | decls, .mk n tag ft :: rest, j => by
    rw [doLoadFieldsRef, fieldCountOf]
    simp only [doLoadRef_snd decls ft, doLoadFieldsRef_snd decls rest]
end

set_option linter.unusedVariables false in
mutual
/-- Declarations that give every name a type of the same kind give the same
tree: of an element type only the kind is read. -/
theorem approx_congr : ∀ (decls decls2 : Decls) (h : ∀ n, (decls2 n).Kind = (decls n).Kind)
    (t : TypeExpr), t.approx decls2 = t.approx decls
  | decls, decls2, h, .struct fields => by
    rw [TypeExpr.approx, TypeExpr.approx, approxFields_congr decls decls2 h fields]
  | decls, decls2, h, .slice elem => by simp [TypeExpr.approx, h]
  | decls, decls2, h, .map key elem => by simp [TypeExpr.approx, h]
  | decls, decls2, h, .basic k => by simp [TypeExpr.approx]
  | decls, decls2, h, .array len elem => by simp [TypeExpr.approx, h]
  | decls, decls2, h, .chan elem => by simp [TypeExpr.approx, h]
  | decls, decls2, h, .func => by simp [TypeExpr.approx]
  | decls, decls2, h, .interface => by simp [TypeExpr.approx]
  | decls, decls2, h, .ptr elem => by simp [TypeExpr.approx, h]
theorem approxFields_congr : ∀ (decls decls2 : Decls)
    (h : ∀ n, (decls2 n).Kind = (decls n).Kind) (fields : List FieldExpr),
    approxFields decls2 fields = approxFields decls fields
  | decls, decls2, h, [] => by rw [approxFields, approxFields]
  | decls, decls2, h, .mk n tag ft :: rest => by
    rw [approxFields, approxFields, approx_congr decls decls2 h ft,
      approxFields_congr decls decls2 h rest]
end

/-- C16 fails as stated: in the record `Node`, which refers to itself through
the map field `M`, the node of `M` is not a leaf; it has the child that
`doLoadFromMap` stores under ".*". -/
theorem self_reference_leaf_counterexample :
    doLoadRef nodeDecls JSONSchema.fresh (nodeDecls "Node") "" =
      (⟨"object", none,
        some [("Next", ⟨"", none, none, none⟩),
          ("Kids", ⟨"array", some ⟨"object"⟩, none, none⟩),
          ("M", ⟨"object", none, some [(".*", ⟨"object", none, none, none⟩)], none⟩)],
        some ["Next", "Kids", "M"]⟩, 4) ∧
    JSONSchema.nodes ⟨"object", none, some [(".*", ⟨"object", none, none, none⟩)], none⟩ =
      [⟨"object", none, some [(".*", ⟨"object", none, none, none⟩)], none⟩,
        ⟨"object", none, none, none⟩] :=
  ⟨rfl, rfl⟩

/-- C16, amended: `doLoad` ends on every type description, also one whose
declarations refer to themselves.  It makes a recursive call only for the
direct fields of a record, once per field: the number of calls is one plus
the number of fields of the records held by value.  It makes no call for
slice elements, map values and pointer targets, of whose types it reads the
kind only, so that the result is the schema of a finite tree.  A field that
is a pointer or a slice becomes a leaf node; a field that is a map becomes an
object node whose single child, under ".*", is a leaf.  For the record `Node`
that refers to itself through a pointer, a slice and a map there are four
calls. -/
theorem doLoadRef_terminates (decls : Decls) (j : JSONSchema) (t : TypeExpr) (o : tagOptions) :
    (doLoadRef decls j t o).1 = doLoad j (t.approx decls) o ∧
    (doLoadRef decls j t o).2 = 1 + t.fieldCount ∧
    (∀ decls2 : Decls, (∀ n, (decls2 n).Kind = (decls n).Kind) →
      doLoadRef decls2 j t o = doLoadRef decls j t o) ∧
    (∀ e, doLoadRef decls JSONSchema.fresh (.ptr e) o = (⟨"", none, none, none⟩, 1)) ∧
    (∀ e, (doLoadRef decls JSONSchema.fresh (.slice e) o).2 = 1 ∧
      (doLoadRef decls JSONSchema.fresh (.slice e) o).1.Properties = none) ∧
    (∀ k e, doLoadRef decls JSONSchema.fresh (.map k e) o =
      (⟨"object", none,
        some [(".*", ⟨getTypeFromMapping (decls e).Kind, none, none, none⟩)], none⟩, 1)) ∧
    doLoadRef nodeDecls JSONSchema.fresh (nodeDecls "Node") "" =
      (⟨"object", none,
        some [("Next", ⟨"", none, none, none⟩),
          ("Kids", ⟨"array", some ⟨"object"⟩, none, none⟩),
          ("M", ⟨"object", none, some [(".*", ⟨"object", none, none, none⟩)], none⟩)],
        some ["Next", "Kids", "M"]⟩, 4) := by
  refine ⟨doLoadRef_fst decls t j o, doLoadRef_snd decls t j o, ?_, ?_, ?_, ?_, rfl⟩
  · intro decls2 h
    apply Prod.ext
    · rw [doLoadRef_fst, doLoadRef_fst, approx_congr decls decls2 h]
    · rw [doLoadRef_snd, doLoadRef_snd]
  · intro e
    rfl
  · intro e
    refine ⟨doLoadRef_snd _ _ _ _, ?_⟩
    simp only [doLoadRef, doLoadFromSliceRef]
    split <;> rfl
  · intro k e
    rfl

end JsonSchema
